import Mathlib

set_option maxHeartbeats 1000000
set_option maxRecDepth 4000

/-!
Shallow embedding of the voctree repository (voctree.go): a sparse octree
holding an 8-bit grayscale voxel volume.  Machine integers are modelled as
Nat with explicit reductions: the Go code stores coordinates in uint16 and
the side shift in uint8, so the bit arithmetic of octIndex is embedded with
the corresponding `% 65536` and `% 256` wrap-arounds.  Pixel values
(color.Gray) are modelled as Nat carrying the 8-bit Y component; the code
only ever compares and copies them, so no `% 256` is needed.
-/

/-- Reduction modulo 2^16, the Go `uint16(...)` conversion. -/
def u16 (n : Nat) : Nat := n % 65536

/-- Go type Point: a voxel coordinate (three uint16 fields). -/
structure Point where
  x : Nat
  y : Nat
  z : Nat
deriving DecidableEq, Repr

/-- Go type Cube: a Point local to the current node plus the depth value
SideShift (uint8); the cube's side length is `2^sideShift`. -/
structure Cube where
  point : Point
  sideShift : Nat
deriving DecidableEq, Repr

/-- Go func octIndex: computes the 3-bit octant index by testing bit
`sideShift-1` of each axis, and the residual cube descriptor with that bit
masked off and the shift decremented.  `sideShift - 1` is uint8 arithmetic
(`(s + 255) % 256`), `1 << (sideShift-1)` is truncated to uint16, and
`side - 1` is uint16 arithmetic, exactly as in the Go source. -/
def octIndex (cube : Cube) : Nat × Cube :=
  let sm1 := (cube.sideShift + 255) % 256
  let side := (1 <<< sm1) % 65536
  let mask := (side + 65535) % 65536
  let p := cube.point
  let index :=
    (if 0 < p.x >>> sm1 then 1 else 0) |||
    (if 0 < p.y >>> sm1 then 2 else 0) |||
    (if 0 < p.z >>> sm1 then 4 else 0)
  (index, { sideShift := sm1,
            point := { x := p.x &&& mask, y := p.y &&& mask, z := p.z &&& mask } })

/-- The node sum type: Go's Vocelish interface with its three implementers
Vocel1 (uniform leaf), Vocel8 (eight-value octant leaf) and VocelTree
(internal node with eight children). -/
inductive Vocel where
  | v1 (pixel : Nat)
  | v8 (pixel : Fin 8 → Nat)
  | vt (subtree : Fin 8 → Vocel)

/-- Whether a node is a Vocel1; Go's `sub.(*Vocel1)` type test. -/
def Vocel.isV1 : Vocel → Bool
  | .v1 _ => true
  | _ => false

/-- The pixel of a Vocel1 (Go reads it after the type assertion succeeds;
the 0 default is dead code guarded by isV1). -/
def Vocel.pix : Vocel → Nat
  | .v1 v => v
  | _ => 0

/-- Go `v.Nodes()`: the size report of each variant. -/
def Vocel.Nodes : Vocel → Nat
  | .v1 _ => 1
  | .v8 _ => 8
  | .vt cs => 1 + ((cs 0).Nodes + ((cs 1).Nodes + ((cs 2).Nodes + ((cs 3).Nodes +
      ((cs 4).Nodes + ((cs 5).Nodes + ((cs 6).Nodes + (cs 7).Nodes)))))))

/-- Go `v.At(cube)`: Vocel1 returns its pixel regardless of the cube,
Vocel8 indexes its flat array by the octant index, VocelTree recurses into
the selected child with the residual cube.  Go indexes a length-8 array
with the computed index (a panic if out of range); the embedding guards the
access, and octIndex_fst_lt below proves the guard never fails. -/
def Vocel.At : Vocel → Cube → Nat
  | .v1 v, _ => v
  | .v8 ps, cube =>
    if h : (octIndex cube).1 < 8 then ps ⟨(octIndex cube).1, h⟩ else 0
  | .vt cs, cube =>
    if h : (octIndex cube).1 < 8 then (cs ⟨(octIndex cube).1, h⟩).At (octIndex cube).2
    else 0

/-- Go's allSame loop in Vocel8.Set: every entry other than `index` already
equals the incoming pixel, so storing it would make all eight equal. -/
def allSameExcept (ps : Fin 8 → Nat) (index : Nat) (pixel : Nat) : Bool :=
  decide (∀ i : Fin 8, (i : Nat) ≠ index → ps i = pixel)

/-- Go's allVocel1 loop in VocelTree.Set. -/
def allV1 (cs : Fin 8 → Vocel) : Bool :=
  decide (∀ i : Fin 8, (cs i).isV1)

/-- Go's allSame check over the collected child pixels in VocelTree.Set. -/
def allSamePix (cs : Fin 8 → Vocel) : Bool :=
  decide (∀ i : Fin 8, (cs i).pix = (cs 0).pix)

/-- Termination measure helper: the shift component, with the value 0
weighted past 255 because uint8 underflow sends a shift of 0 to 255. -/
def fShift (s : Nat) : Nat := if s = 0 then 256 else s

/-- Termination measure for Vocel.Set: a Vocel1 split re-enters Set on a
fresh Vocel8 at the same cube, a Vocel8 split re-enters on a fresh
VocelTree of Vocel1 leaves at the same cube, and a VocelTree descends into
a child with the shift decremented (by uint8 arithmetic). -/
def phiV : Vocel → Nat → Nat
  | .v1 _, s => 10 * fShift s + 2
  | .v8 _, s => 10 * fShift s + 1
  | .vt cs, s =>
    let m := (s + 255) % 256
    1 + max (phiV (cs 0) m) (max (phiV (cs 1) m) (max (phiV (cs 2) m)
      (max (phiV (cs 3) m) (max (phiV (cs 4) m) (max (phiV (cs 5) m)
      (max (phiV (cs 6) m) (phiV (cs 7) m)))))))

theorem octIndex_fst_lt (cube : Cube) : (octIndex cube).1 < 8 := by
  unfold octIndex
  dsimp only
  split <;> split <;> split <;> decide

theorem octIndex_snd_sideShift (cube : Cube) :
    (octIndex cube).2.sideShift = (cube.sideShift + 255) % 256 := rfl

theorem phiV_child_lt (cs : Fin 8 → Vocel) (i : Fin 8) (s : Nat) :
    phiV (cs i) ((s + 255) % 256) < phiV (.vt cs) s := by
  have h : phiV (cs i) ((s + 255) % 256) ≤
      max (phiV (cs 0) ((s + 255) % 256)) (max (phiV (cs 1) ((s + 255) % 256))
        (max (phiV (cs 2) ((s + 255) % 256)) (max (phiV (cs 3) ((s + 255) % 256))
        (max (phiV (cs 4) ((s + 255) % 256)) (max (phiV (cs 5) ((s + 255) % 256))
        (max (phiV (cs 6) ((s + 255) % 256)) (phiV (cs 7) ((s + 255) % 256)))))))) := by
    fin_cases i <;> simp [le_max_iff, le_refl]
  calc phiV (cs i) ((s + 255) % 256)
      ≤ _ := h
    _ < phiV (.vt cs) s := by
      conv_rhs => rw [phiV]
      omega

/-- The tail of Go VocelTree.Set after the child write: if all eight
children are Vocel1, collect their pixels and coalesce into a Vocel1 (all
equal) or a Vocel8 (not all equal); otherwise keep the VocelTree. -/
def coalesce (cs2 : Fin 8 → Vocel) : Vocel :=
  if allV1 cs2 then
    if allSamePix cs2 then .v1 ((cs2 0).pix)
    else .v8 (fun i => (cs2 i).pix)
  else .vt cs2

/-- Go `v.Set(cube, pixel)`, covering all three variants.

Vocel1.Set: at shift 0 or on a matching pixel, store in place; otherwise
split into a Vocel8 seeded with the original pixel and delegate.

Vocel8.Set: if the addressed entry matches, no change; at shift 1, either
coalesce to a Vocel1 (when the write would make all eight entries equal) or
store in place; at any other shift, split into a VocelTree of Vocel1 leaves
seeded from the eight entries and delegate.

VocelTree.Set: descend into the addressed child, store its replacement,
then coalesce to a Vocel1 or Vocel8 when all eight children are Vocel1.
The child array access is guarded exactly as in Vocel.At. -/
def Vocel.Set : Vocel → Cube → Nat → Vocel
  | .v1 v, cube, pixel =>
    if cube.sideShift = 0 ∨ pixel = v then .v1 pixel
    else Vocel.Set (.v8 (fun _ => v)) cube pixel
  | .v8 ps, cube, pixel =>
    if h : (octIndex cube).1 < 8 then
      if ps ⟨(octIndex cube).1, h⟩ = pixel then .v8 ps
      else if cube.sideShift = 1 then
        if allSameExcept ps (octIndex cube).1 pixel then .v1 pixel
        else .v8 (Function.update ps ⟨(octIndex cube).1, h⟩ pixel)
      else Vocel.Set (.vt (fun i => .v1 (ps i))) cube pixel
    else .v8 ps
  | .vt cs, cube, pixel =>
    if h : (octIndex cube).1 < 8 then
      coalesce (Function.update cs ⟨(octIndex cube).1, h⟩
        (Vocel.Set (cs ⟨(octIndex cube).1, h⟩) (octIndex cube).2 pixel))
    else .vt cs
termination_by t cube _ => phiV t cube.sideShift
decreasing_by
  · show phiV (.v8 fun _ => v) cube.sideShift < phiV (.v1 v) cube.sideShift
    simp [phiV]
  · show phiV (.vt fun i => .v1 (ps i)) cube.sideShift < phiV (.v8 ps) cube.sideShift
    have hs : cube.sideShift ≠ 1 := by assumption
    simp only [phiV]
    have hm : ∀ a b : Nat, a = b → max a (max a (max a (max a (max a (max a (max a a)))))) = a := by
      intro a b _; simp
    rw [hm _ _ rfl]
    rcases Nat.eq_zero_or_pos cube.sideShift with h0 | hpos
    · rw [h0]; norm_num [fShift]
    · have h1 : 2 ≤ cube.sideShift := by omega
      rcases Nat.lt_or_ge cube.sideShift 257 with hlt | hge
      · have : (cube.sideShift + 255) % 256 = cube.sideShift - 1 := by omega
        rw [this]
        simp only [fShift]
        split <;> split <;> omega
      · have : (cube.sideShift + 255) % 256 < 256 := Nat.mod_lt _ (by norm_num)
        simp only [fShift]
        split <;> split <;> omega
  · exact phiV_child_lt cs _ cube.sideShift

/-- Go type Voctree: the volume container.  The embedded image.Rectangle
only ever supplies the constructed X/Y extents (Size().X and Size().Y), so
it is modelled by the two sizes. -/
structure Voctree where
  vocelish : Vocel
  sizeX : Nat
  sizeY : Nat
  sideShift : Nat

/-- The loops of Go NewVoctree: raise s until `1 << s` covers size. -/
def growShift (size s : Nat) : Nat :=
  if 1 <<< s < size then growShift size (s + 1) else s
termination_by size - s
decreasing_by
  have hlt : s < 1 <<< s := by
    rw [Nat.one_shiftLeft]; exact Nat.lt_two_pow s
  omega

/-- Go NewVoctree: root is a zero Vocel1, shift is raised to cover sizex
and then sizey. -/
def newVoctree (sizex sizey : Nat) : Voctree :=
  { vocelish := .v1 0, sizeX := sizex, sizeY := sizey,
    sideShift := growShift sizey (growShift sizex 0) }

/-- The wrap step of Go Voctree.resizeSideShift: increment the shift and
nest the existing root as octant 0 of a fresh VocelTree whose other seven
children are zero Vocel1 leaves. -/
def wrapRoot (v : Voctree) : Voctree :=
  { v with sideShift := v.sideShift + 1,
           vocelish := .vt (fun i => if i = 0 then v.vocelish else .v1 0) }

/-- Go Voctree.resizeSideShift: while `1 << SideShift < z`, wrap the root.
The comparison uses the Go int `1 << v.SideShift`, not a uint16
truncation. -/
def resizeSideShift (v : Voctree) (z : Nat) : Voctree :=
  if 1 <<< v.sideShift < z then resizeSideShift (wrapRoot v) z else v
termination_by z - 1 <<< v.sideShift
decreasing_by
  simp only [wrapRoot, Nat.one_shiftLeft] at *
  have h2 : 2 ^ v.sideShift < 2 ^ (v.sideShift + 1) :=
    Nat.pow_lt_pow_right (by norm_num) (by omega)
  omega

/-- Go Voctree.Set: delegate to the root node at the current shift and
store the returned node as the new root.  No depth growth happens here. -/
def Voctree.Set (v : Voctree) (p : Point) (pixel : Nat) : Voctree :=
  { v with vocelish := v.vocelish.Set { sideShift := v.sideShift, point := p } pixel }

/-- Go Voctree.At: delegate to the root node at the current shift. -/
def Voctree.At (v : Voctree) (p : Point) : Nat :=
  v.vocelish.At { sideShift := v.sideShift, point := p }

/-- Go Voctree.Nodes: the root node's size report. -/
def Voctree.Nodes (v : Voctree) : Nat := v.vocelish.Nodes

/-- Go Voctree.SetPlane: reject a pixel buffer whose length differs from
sizeX*sizeY (the ShapeMismatch error, modelled as `some ()`) before any
mutation; otherwise grow depth for z, then write every (x, y) of the fixed
extent at depth z, row-major, with the Go uint16 conversions on the
coordinates.  Go indexes pix[y*size.X+x], in bounds by the length check;
the embedding's 0 default is that dead guard. -/
def setPlane (v : Voctree) (z : Nat) (pix : List Nat) : Voctree × Option Unit :=
  if pix.length ≠ v.sizeX * v.sizeY then (v, some ())
  else
    let v2 := resizeSideShift v z
    ((List.range v2.sizeY).foldl (fun acc y =>
      (List.range acc.sizeX).foldl (fun acc2 x =>
        let cube := Cube.mk (Point.mk (u16 x) (u16 y) (u16 z)) v2.sideShift
        { acc2 with vocelish := acc2.vocelish.Set cube (pix.getD (y * v2.sizeX + x) 0) })
        acc) v2, none)

/-- Go Voctree.GetPlane: grow depth for z, then read every (x, y) of the
fixed extent at depth z into a row-major buffer.  The mutated container (a
read can grow depth) is returned alongside the buffer. -/
def getPlane (v : Voctree) (z : Nat) : List Nat × Voctree :=
  let v2 := resizeSideShift v z
  (((List.range v2.sizeY).map (fun y => (List.range v2.sizeX).map (fun x =>
      v2.vocelish.At { sideShift := v2.sideShift,
                       point := { x := u16 x, y := u16 y, z := u16 z } }))).flatten, v2)

/-!  Clean forms of the octant addressing for shifts in the exact uint16
regime (1 ≤ s ≤ 16), and the embed/decompose toolkit for in-range
coordinates. -/

/-- The in-range voxels of a side-`2^s` cube: every coordinate below the
side length on each axis. -/
def inCube (s : Nat) (p : Point) : Prop :=
  p.x < 2 ^ s ∧ p.y < 2 ^ s ∧ p.z < 2 ^ s

/-- Arithmetic form of the octant index computed by octIndex. -/
def octOf (s : Nat) (p : Point) : Nat :=
  (if 2 ^ (s - 1) ≤ p.x then 1 else 0) + (if 2 ^ (s - 1) ≤ p.y then 2 else 0) +
    (if 2 ^ (s - 1) ≤ p.z then 4 else 0)

/-- Arithmetic form of the residual coordinate computed by octIndex. -/
def resOf (s : Nat) (p : Point) : Point :=
  { x := p.x % 2 ^ (s - 1), y := p.y % 2 ^ (s - 1), z := p.z % 2 ^ (s - 1) }

theorem octOf_lt (s : Nat) (p : Point) : octOf s p < 8 := by
  unfold octOf; split <;> split <;> split <;> norm_num

/-- The octant index as an index into the eight-element child arrays. -/
def octFin (s : Nat) (p : Point) : Fin 8 := ⟨octOf s p, octOf_lt s p⟩

theorem shiftRight_pos_iff (x n : Nat) : 0 < x >>> n ↔ 2 ^ n ≤ x := by
  rw [Nat.shiftRight_eq_div_pow]
  exact Nat.div_pos_iff (Nat.pos_iff_ne_zero.mp (Nat.pos_pow_of_pos n (by norm_num)))

theorem octIndex_eval (s : Nat) (p : Point) (h1 : 1 ≤ s) (h16 : s ≤ 16) :
    octIndex ⟨p, s⟩ = (octOf s p, ⟨resOf s p, s - 1⟩) := by
  have hsm1 : (s + 255) % 256 = s - 1 := by omega
  have hb : 2 ^ (s - 1) ≤ 32768 := by
    calc 2 ^ (s - 1) ≤ 2 ^ 15 := Nat.pow_le_pow_right (by norm_num) (by omega)
      _ = 32768 := by norm_num
  have h1p : 1 ≤ 2 ^ (s - 1) := Nat.one_le_two_pow
  have hside : (1 <<< (s - 1)) % 65536 = 2 ^ (s - 1) := by
    rw [Nat.one_shiftLeft]; exact Nat.mod_eq_of_lt (by omega)
  have hmask : (2 ^ (s - 1) + 65535) % 65536 = 2 ^ (s - 1) - 1 := by omega
  simp only [octIndex]
  simp only [hsm1, hside, hmask]
  have hx := shiftRight_pos_iff p.x (s - 1)
  have hy := shiftRight_pos_iff p.y (s - 1)
  have hz := shiftRight_pos_iff p.z (s - 1)
  rw [Prod.ext_iff]
  constructor
  · dsimp only
    rw [if_congr hx rfl rfl, if_congr hy rfl rfl, if_congr hz rfl rfl]
    unfold octOf
    split <;> split <;> split <;> decide
  · dsimp only
    rw [Cube.mk.injEq]
    refine ⟨?_, rfl⟩
    rw [Point.mk.injEq]
    unfold resOf
    refine ⟨?_, ?_, ?_⟩ <;> exact Nat.and_pow_two_sub_one_eq_mod _ _

/-- Recombination of an octant index and a residual coordinate. -/
def embed (s i : Nat) (q : Point) : Point :=
  { x := q.x + 2 ^ (s - 1) * (i % 2), y := q.y + 2 ^ (s - 1) * (i / 2 % 2),
    z := q.z + 2 ^ (s - 1) * (i / 4 % 2) }

theorem axis_oct (h q b : Nat) (hq : q < h) (hb : b ≤ 1) :
    ((h ≤ q + h * b) ↔ b = 1) ∧ (q + h * b) % h = q := by
  rcases (by omega : b = 0 ∨ b = 1) with rfl | rfl
  · constructor
    · simp only [Nat.mul_zero, Nat.add_zero]
      constructor
      · intro hh; omega
      · intro hh; exact absurd hh (by norm_num)
    · simp only [Nat.mul_zero, Nat.add_zero]
      exact Nat.mod_eq_of_lt hq
  · constructor
    · simp only [Nat.mul_one]
      constructor
      · intro _; trivial
      · intro _; omega
    · simp only [Nat.mul_one]
      rw [Nat.add_mod_right]
      exact Nat.mod_eq_of_lt hq

theorem embed_octOf (s i : Nat) (q : Point) (hi : i < 8) (hq : inCube (s - 1) q) :
    octOf s (embed s i q) = i ∧ resOf s (embed s i q) = q := by
  obtain ⟨hx, hy, hz⟩ := hq
  have h1 := axis_oct (2 ^ (s - 1)) q.x (i % 2) hx (by omega)
  have h2 := axis_oct (2 ^ (s - 1)) q.y (i / 2 % 2) hy (by omega)
  have h3 := axis_oct (2 ^ (s - 1)) q.z (i / 4 % 2) hz (by omega)
  constructor
  · simp only [octOf, embed]
    rw [if_congr h1.1 rfl rfl, if_congr h2.1 rfl rfl, if_congr h3.1 rfl rfl]
    split_ifs <;> omega
  · simp only [resOf, embed]
    rw [h1.2, h2.2, h3.2]

theorem resOf_inCube (s : Nat) (p : Point) : inCube (s - 1) (resOf s p) := by
  have hp : 0 < 2 ^ (s - 1) := Nat.pos_pow_of_pos _ (by norm_num)
  exact ⟨Nat.mod_lt _ hp, Nat.mod_lt _ hp, Nat.mod_lt _ hp⟩

theorem two_pow_split (s : Nat) (h1 : 1 ≤ s) : 2 ^ s = 2 * 2 ^ (s - 1) := by
  conv_lhs => rw [← Nat.sub_add_cancel h1, pow_succ]
  ring

theorem inCube_embed (s i : Nat) (q : Point) (h1 : 1 ≤ s) (hi : i < 8)
    (hq : inCube (s - 1) q) : inCube s (embed s i q) := by
  obtain ⟨hx, hy, hz⟩ := hq
  have hsplit := two_pow_split s h1
  have b1 : i % 2 ≤ 1 := by omega
  have b2 : i / 2 % 2 ≤ 1 := by omega
  have b3 : i / 4 % 2 ≤ 1 := by omega
  have m1 : 2 ^ (s - 1) * (i % 2) ≤ 2 ^ (s - 1) * 1 := Nat.mul_le_mul_left _ b1
  have m2 : 2 ^ (s - 1) * (i / 2 % 2) ≤ 2 ^ (s - 1) * 1 := Nat.mul_le_mul_left _ b2
  have m3 : 2 ^ (s - 1) * (i / 4 % 2) ≤ 2 ^ (s - 1) * 1 := Nat.mul_le_mul_left _ b3
  refine ⟨?_, ?_, ?_⟩ <;> simp only [embed] <;> omega

theorem axis_recon (h x : Nat) (hp : 0 < h) (hx : x < 2 * h) :
    x % h + h * (if h ≤ x then 1 else 0) = x := by
  have hd := Nat.div_add_mod x h
  have hq : x / h = if h ≤ x then 1 else 0 := by
    split
    · exact Nat.div_eq_of_lt_le (by omega) (by omega)
    · exact Nat.div_eq_of_lt (by omega)
  rw [hq] at hd
  split at hd <;> split <;> omega

theorem embed_decomp (s : Nat) (p : Point) (h1 : 1 ≤ s) (hp : inCube s p) :
    embed s (octOf s p) (resOf s p) = p := by
  obtain ⟨hx, hy, hz⟩ := hp
  have hpow : 0 < 2 ^ (s - 1) := Nat.pos_pow_of_pos _ (by norm_num)
  have hsplit := two_pow_split s h1
  have hbits : ∀ bx by' bz : Nat, bx ≤ 1 → by' ≤ 1 → bz ≤ 1 →
      (bx + 2 * by' + 4 * bz) % 2 = bx ∧ (bx + 2 * by' + 4 * bz) / 2 % 2 = by' ∧
      (bx + 2 * by' + 4 * bz) / 4 % 2 = bz := by
    intro bx by' bz hbx hby hbz
    refine ⟨?_, ?_, ?_⟩ <;> omega
  have hox : octOf s p = (if 2 ^ (s - 1) ≤ p.x then 1 else 0) +
      2 * (if 2 ^ (s - 1) ≤ p.y then 1 else 0) + 4 * (if 2 ^ (s - 1) ≤ p.z then 1 else 0) := by
    unfold octOf
    split <;> split <;> split <;> ring
  obtain ⟨e1, e2, e3⟩ := hbits (if 2 ^ (s - 1) ≤ p.x then 1 else 0)
    (if 2 ^ (s - 1) ≤ p.y then 1 else 0) (if 2 ^ (s - 1) ≤ p.z then 1 else 0)
    (by split <;> omega) (by split <;> omega) (by split <;> omega)
  simp only [embed, resOf, hox, e1, e2, e3]
  rw [Point.mk.injEq]
  refine ⟨?_, ?_, ?_⟩ <;> exact axis_recon _ _ hpow (by omega)

theorem inCube_zero (p : Point) : inCube 0 p ↔ p = ⟨0, 0, 0⟩ := by
  rcases p with ⟨x, y, z⟩
  simp only [inCube, pow_zero, Nat.lt_one_iff, Point.mk.injEq]

theorem resOf_one (p : Point) : resOf 1 p = ⟨0, 0, 0⟩ := by
  simp [resOf, Nat.mod_one]

theorem point_eq_iff (s : Nat) (p q : Point) (h1 : 1 ≤ s) (hp : inCube s p)
    (hq : inCube s q) :
    p = q ↔ octOf s p = octOf s q ∧ resOf s p = resOf s q := by
  constructor
  · intro h; rw [h]; exact ⟨rfl, rfl⟩
  · intro ⟨ho, hr⟩
    have := embed_decomp s p h1 hp
    rw [ho, hr, embed_decomp s q h1 hq] at this
    exact this.symm

/-!  Clean unfold lemmas for the node operations at shifts in [1, 16]. -/

theorem At_v1 (v : Nat) (cube : Cube) : (Vocel.v1 v).At cube = v := rfl

theorem At_v8_clean (ps : Fin 8 → Nat) (p : Point) (s : Nat) (h1 : 1 ≤ s) (h16 : s ≤ 16) :
    (Vocel.v8 ps).At ⟨p, s⟩ = ps (octFin s p) := by
  simp only [Vocel.At]
  simp only [octIndex_eval s p h1 h16]
  rw [dif_pos (octOf_lt s p)]
  rfl

theorem At_vt_clean (cs : Fin 8 → Vocel) (p : Point) (s : Nat) (h1 : 1 ≤ s) (h16 : s ≤ 16) :
    (Vocel.vt cs).At ⟨p, s⟩ = (cs (octFin s p)).At ⟨resOf s p, s - 1⟩ := by
  simp only [Vocel.At]
  simp only [octIndex_eval s p h1 h16]
  rw [dif_pos (octOf_lt s p)]
  rfl

theorem Set_v1_def (v : Nat) (cube : Cube) (pixel : Nat) :
    (Vocel.v1 v).Set cube pixel =
      if cube.sideShift = 0 ∨ pixel = v then .v1 pixel
      else (Vocel.v8 fun _ => v).Set cube pixel := by
  rw [Vocel.Set.eq_1]

theorem Set_v8_clean (ps : Fin 8 → Nat) (p : Point) (s pixel : Nat)
    (h1 : 1 ≤ s) (h16 : s ≤ 16) :
    (Vocel.v8 ps).Set ⟨p, s⟩ pixel =
      if ps (octFin s p) = pixel then .v8 ps
      else if s = 1 then
        if allSameExcept ps (octOf s p) pixel then .v1 pixel
        else .v8 (Function.update ps (octFin s p) pixel)
      else (Vocel.vt fun i => .v1 (ps i)).Set ⟨p, s⟩ pixel := by
  rw [Vocel.Set.eq_2]
  simp only [octIndex_eval s p h1 h16]
  rw [dif_pos (octOf_lt s p)]
  rfl

theorem Set_vt_clean (cs : Fin 8 → Vocel) (p : Point) (s pixel : Nat)
    (h1 : 1 ≤ s) (h16 : s ≤ 16) :
    (Vocel.vt cs).Set ⟨p, s⟩ pixel =
      coalesce
        (Function.update cs (octFin s p) ((cs (octFin s p)).Set ⟨resOf s p, s - 1⟩ pixel)) := by
  rw [Vocel.Set.eq_3]
  simp only [octIndex_eval s p h1 h16]
  rw [dif_pos (octOf_lt s p)]
  rfl

/-!  The spec's compactness invariant, split into three structural
predicates, and basic structural facts. -/

/-- Shape soundness at shift s: Vocel8 and VocelTree nodes never sit at
shift 0 (the spec's "at shift = 0 a node is always a UniformLeaf"),
children being addressed one level lower. -/
def WfShape : Nat → Vocel → Prop
  | _, .v1 _ => True
  | s, .v8 _ => 1 ≤ s
  | s, .vt cs => 1 ≤ s ∧ ∀ i : Fin 8, WfShape (s - 1) (cs i)

/-- No Vocel8 anywhere in the tree holds eight equal values (the spec's
"an OctantLeaf's eight values are never all equal"). -/
def NoEq8 : Vocel → Prop
  | .v1 _ => True
  | .v8 ps => ¬ ∀ i : Fin 8, ps i = ps 0
  | .vt cs => ∀ i : Fin 8, NoEq8 (cs i)

/-- Every VocelTree in the tree has a child that is not a Vocel1 (the
spec's "an InternalNode's eight children are never simultaneously all
UniformLeaf"). -/
def DeepND : Vocel → Prop
  | .v1 _ => True
  | .v8 _ => True
  | .vt cs => (∃ i : Fin 8, ¬ (cs i).isV1) ∧ ∀ i : Fin 8, DeepND (cs i)

/-- The spec's full compactness invariant at shift s. -/
def Compact (s : Nat) (t : Vocel) : Prop := WfShape s t ∧ NoEq8 t ∧ DeepND t

theorem isV1_iff (t : Vocel) : t.isV1 = true ↔ ∃ v, t = .v1 v := by
  cases t <;> simp [Vocel.isV1]

theorem Nodes_pos (t : Vocel) : 1 ≤ t.Nodes := by
  cases t <;> simp [Vocel.Nodes]

theorem Nodes_eq_one_iff (t : Vocel) : t.Nodes = 1 ↔ t.isV1 = true := by
  cases t with
  | v1 v => simp [Vocel.Nodes, Vocel.isV1]
  | v8 ps => simp [Vocel.Nodes, Vocel.isV1]
  | vt cs =>
    simp only [Vocel.Nodes, Vocel.isV1]
    have h0 := Nodes_pos (cs 0)
    have h1 := Nodes_pos (cs 1)
    have h2 := Nodes_pos (cs 2)
    have h3 := Nodes_pos (cs 3)
    have h4 := Nodes_pos (cs 4)
    have h5 := Nodes_pos (cs 5)
    have h6 := Nodes_pos (cs 6)
    have h7 := Nodes_pos (cs 7)
    constructor
    · intro h; omega
    · intro h; cases h
  
theorem allV1_iff (cs : Fin 8 → Vocel) : allV1 cs = true ↔ ∀ i : Fin 8, (cs i).isV1 := by
  unfold allV1; exact decide_eq_true_iff

theorem allSamePix_iff (cs : Fin 8 → Vocel) :
    allSamePix cs = true ↔ ∀ i : Fin 8, (cs i).pix = (cs 0).pix := by
  unfold allSamePix; exact decide_eq_true_iff

theorem allSameExcept_iff (ps : Fin 8 → Nat) (index pixel : Nat) :
    allSameExcept ps index pixel = true ↔ ∀ i : Fin 8, (i : Nat) ≠ index → ps i = pixel := by
  unfold allSameExcept; exact decide_eq_true_iff

/-- An index in [0, 8) other than a given one. -/
def otherIdx (i : Fin 8) : Fin 8 := if i = 0 then 1 else 0

theorem otherIdx_ne (i : Fin 8) : otherIdx i ≠ i := by
  unfold otherIdx
  split <;> simp_all <;> omega

/-- Splitting a Vocel1 with a genuinely different pixel at shift n+1 (the
uint16 regime) produces a compact tree that is not a Vocel1. -/
theorem splitV1_compact : ∀ n, n ≤ 15 → ∀ (v pixel : Nat) (p : Point), pixel ≠ v →
    Compact (n + 1) ((Vocel.v1 v).Set ⟨p, n + 1⟩ pixel) ∧
      ¬ ((Vocel.v1 v).Set ⟨p, n + 1⟩ pixel).isV1 := by
  intro n
  induction n with
  | zero =>
    intro _ v pixel p hne
    rw [Set_v1_def, if_neg (by simp [hne])]
    rw [Set_v8_clean _ _ _ _ (by norm_num) (by norm_num)]
    rw [if_neg (fun hc => hne hc.symm)]
    rw [if_pos rfl]
    rw [if_neg ?hAS]
    case hAS =>
      rw [allSameExcept_iff]
      intro h
      have hk := h (otherIdx (octFin 1 p))
        (fun hv => (otherIdx_ne (octFin 1 p)) (Fin.ext hv))
      exact hne hk.symm
    refine ⟨⟨le_refl 1, ?_, trivial⟩, by simp [Vocel.isV1]⟩
    intro h
    have hj : Function.update (fun _ => v) (octFin 1 p) pixel (octFin 1 p) = pixel :=
      Function.update_same _ _ _
    have hk : Function.update (fun _ => v) (octFin 1 p) pixel (otherIdx (octFin 1 p)) = v :=
      Function.update_noteq (otherIdx_ne (octFin 1 p)) _ _
    have heq := (h (octFin 1 p)).trans (h (otherIdx (octFin 1 p))).symm
    rw [hj, hk] at heq
    exact hne heq
  | succ n ih =>
    intro hn v pixel p hne
    have h1 : (1 : Nat) ≤ n + 2 := by omega
    have h16 : n + 2 ≤ 16 := by omega
    rw [Set_v1_def, if_neg (by simp [hne])]
    rw [Set_v8_clean _ _ _ _ h1 h16]
    rw [if_neg (fun hc => hne hc.symm)]
    rw [if_neg (by omega : ¬ (n + 2 = 1))]
    rw [Set_vt_clean _ _ _ _ h1 h16]
    have hsd : n + 2 - 1 = n + 1 := by omega
    rw [hsd]
    obtain ⟨hsubC, hsubV⟩ := ih (by omega) v pixel (resOf (n + 2) p) hne
    have hnv1 : ¬ allV1 (Function.update (fun i => Vocel.v1 ((fun _ => v) i))
        (octFin (n + 2) p) ((Vocel.v1 v).Set ⟨resOf (n + 2) p, n + 1⟩ pixel)) = true := by
      rw [allV1_iff]
      intro h
      have := h (octFin (n + 2) p)
      rw [Function.update_same] at this
      exact hsubV this
    rw [coalesce, if_neg hnv1]
    refine ⟨⟨⟨by omega, ?_⟩, ?_, ⟨octFin (n + 2) p, ?_⟩, ?_⟩, by simp [Vocel.isV1]⟩
    · intro i
      rcases eq_or_ne i (octFin (n + 2) p) with rfl | hne2
      · rw [Function.update_same, hsd]
        exact hsubC.1
      · rw [Function.update_noteq hne2]
        trivial
    · intro i
      rcases eq_or_ne i (octFin (n + 2) p) with rfl | hne2
      · rw [Function.update_same]
        exact hsubC.2.1
      · rw [Function.update_noteq hne2]
        trivial
    · rw [Function.update_same]
      exact hsubV
    · intro i
      rcases eq_or_ne i (octFin (n + 2) p) with rfl | hne2
      · rw [Function.update_same]
        exact hsubC.2.2
      · rw [Function.update_noteq hne2]
        trivial

theorem coalesce_wfShape (s : Nat) (cs2 : Fin 8 → Vocel) (h1 : 1 ≤ s)
    (h : ∀ i, WfShape (s - 1) (cs2 i)) : WfShape s (coalesce cs2) := by
  unfold coalesce
  split
  · split
    · trivial
    · exact h1
  · exact ⟨h1, h⟩

theorem coalesce_noEq8 (cs2 : Fin 8 → Vocel) (h : ∀ i, NoEq8 (cs2 i)) :
    NoEq8 (coalesce cs2) := by
  unfold coalesce
  split
  · split
    · trivial
    · next hnsp =>
      intro hall
      exact hnsp ((allSamePix_iff cs2).mpr hall)
  · exact h

theorem coalesce_deepND (cs2 : Fin 8 → Vocel) (h : ∀ i, DeepND (cs2 i)) :
    DeepND (coalesce cs2) := by
  unfold coalesce
  split
  · split
    · trivial
    · trivial
  · next hnv1 =>
    refine ⟨?_, h⟩
    rw [allV1_iff] at hnv1
    push_neg at hnv1
    obtain ⟨i, hi⟩ := hnv1
    exact ⟨i, by simpa using hi⟩

/-- Per-voxel writes preserve shape soundness (uint16 shifts). -/
theorem Set_wfShape (t : Vocel) : ∀ (p : Point) (s pixel : Nat), s ≤ 16 →
    WfShape s t → WfShape s (t.Set ⟨p, s⟩ pixel) := by
  induction t with
  | v1 v =>
    intro p s pixel h16 _
    rcases eq_or_ne pixel v with rfl | hpv
    · rw [Set_v1_def, if_pos (Or.inr rfl)]; trivial
    rcases Nat.eq_zero_or_pos s with rfl | hs
    · rw [Set_v1_def, if_pos (Or.inl rfl)]; trivial
    obtain ⟨n, rfl⟩ : ∃ n, s = n + 1 := ⟨s - 1, by omega⟩
    exact (splitV1_compact n (by omega) v pixel p hpv).1.1
  | v8 ps =>
    intro p s pixel h16 hw
    have hs1 : 1 ≤ s := hw
    rw [Set_v8_clean _ _ _ _ hs1 h16]
    split
    · exact hw
    · next hne =>
      split
      · split
        · trivial
        · exact hs1
      · next hsne =>
        rw [Set_vt_clean _ _ _ _ hs1 h16]
        obtain ⟨n, rfl⟩ : ∃ n, s = n + 2 := ⟨s - 2, by omega⟩
        have hsd : n + 2 - 1 = n + 1 := by omega
        obtain ⟨hc, hv⟩ := splitV1_compact n (by omega) (ps (octFin (n + 2) p)) pixel
          (resOf (n + 2) p) (fun h => hne h.symm)
        apply coalesce_wfShape _ _ (by omega)
        intro i
        rw [hsd]
        rcases eq_or_ne i (octFin (n + 2) p) with rfl | hne2
        · rw [Function.update_same]
          exact hc.1
        · rw [Function.update_noteq hne2]
          trivial
  | vt cs ih =>
    intro p s pixel h16 hw
    obtain ⟨hs1, hchild⟩ := hw
    rw [Set_vt_clean _ _ _ _ hs1 h16]
    apply coalesce_wfShape _ _ hs1
    intro i
    rcases eq_or_ne i (octFin s p) with rfl | hne2
    · rw [Function.update_same]
      exact ih _ _ (s - 1) pixel (by omega) (hchild _)
    · rw [Function.update_noteq hne2]
      exact hchild i

/-- Per-voxel writes never produce an all-equal Vocel8 (uint16 shifts). -/
theorem Set_noEq8 (t : Vocel) : ∀ (p : Point) (s pixel : Nat), s ≤ 16 →
    WfShape s t → NoEq8 t → NoEq8 (t.Set ⟨p, s⟩ pixel) := by
  induction t with
  | v1 v =>
    intro p s pixel h16 _ _
    rcases eq_or_ne pixel v with rfl | hpv
    · rw [Set_v1_def, if_pos (Or.inr rfl)]; trivial
    rcases Nat.eq_zero_or_pos s with rfl | hs
    · rw [Set_v1_def, if_pos (Or.inl rfl)]; trivial
    obtain ⟨n, rfl⟩ : ∃ n, s = n + 1 := ⟨s - 1, by omega⟩
    exact (splitV1_compact n (by omega) v pixel p hpv).1.2.1
  | v8 ps =>
    intro p s pixel h16 hw hn
    have hs1 : 1 ≤ s := hw
    rw [Set_v8_clean _ _ _ _ hs1 h16]
    split
    · exact hn
    · next hne =>
      split
      · split
        · trivial
        · next hnas =>
          rw [allSameExcept_iff] at hnas
          push_neg at hnas
          obtain ⟨i, hi, hpsi⟩ := hnas
          intro hall
          have h1 := hall i
          have h2 := hall (octFin s p)
          rw [Function.update_same] at h2
          rw [Function.update_noteq (fun hv => hi (by rw [hv]; rfl))] at h1
          exact hpsi (h1.trans h2.symm)
      · next hsne =>
        rw [Set_vt_clean _ _ _ _ hs1 h16]
        obtain ⟨n, rfl⟩ : ∃ n, s = n + 2 := ⟨s - 2, by omega⟩
        have hsd : n + 2 - 1 = n + 1 := by omega
        obtain ⟨hc, hv⟩ := splitV1_compact n (by omega) (ps (octFin (n + 2) p)) pixel
          (resOf (n + 2) p) (fun h => hne h.symm)
        apply coalesce_noEq8
        intro i
        rcases eq_or_ne i (octFin (n + 2) p) with rfl | hne2
        · rw [Function.update_same]
          simp only [hsd]
          exact hc.2.1
        · rw [Function.update_noteq hne2]
          trivial
  | vt cs ih =>
    intro p s pixel h16 hw hn
    obtain ⟨hs1, hchild⟩ := hw
    rw [Set_vt_clean _ _ _ _ hs1 h16]
    apply coalesce_noEq8
    intro i
    rcases eq_or_ne i (octFin s p) with rfl | hne2
    · rw [Function.update_same]
      exact ih _ _ (s - 1) pixel (by omega) (hchild _) (hn _)
    · rw [Function.update_noteq hne2]
      exact hn i

/-- Per-voxel writes preserve the no-dead-internal-node property (uint16
shifts), given shape soundness. -/
theorem Set_deepND (t : Vocel) : ∀ (p : Point) (s pixel : Nat), s ≤ 16 →
    WfShape s t → DeepND t → DeepND (t.Set ⟨p, s⟩ pixel) := by
  induction t with
  | v1 v =>
    intro p s pixel h16 _ _
    rcases eq_or_ne pixel v with rfl | hpv
    · rw [Set_v1_def, if_pos (Or.inr rfl)]; trivial
    rcases Nat.eq_zero_or_pos s with rfl | hs
    · rw [Set_v1_def, if_pos (Or.inl rfl)]; trivial
    obtain ⟨n, rfl⟩ : ∃ n, s = n + 1 := ⟨s - 1, by omega⟩
    exact (splitV1_compact n (by omega) v pixel p hpv).1.2.2
  | v8 ps =>
    intro p s pixel h16 hw hn
    have hs1 : 1 ≤ s := hw
    rw [Set_v8_clean _ _ _ _ hs1 h16]
    split
    · trivial
    · next hne =>
      split
      · split
        · trivial
        · trivial
      · next hsne =>
        rw [Set_vt_clean _ _ _ _ hs1 h16]
        obtain ⟨n, rfl⟩ : ∃ n, s = n + 2 := ⟨s - 2, by omega⟩
        have hsd : n + 2 - 1 = n + 1 := by omega
        obtain ⟨hc, hv⟩ := splitV1_compact n (by omega) (ps (octFin (n + 2) p)) pixel
          (resOf (n + 2) p) (fun h => hne h.symm)
        apply coalesce_deepND
        intro i
        rcases eq_or_ne i (octFin (n + 2) p) with rfl | hne2
        · rw [Function.update_same]
          simp only [hsd]
          exact hc.2.2
        · rw [Function.update_noteq hne2]
          trivial
  | vt cs ih =>
    intro p s pixel h16 hw hn
    obtain ⟨hs1, hchild⟩ := hw
    rw [Set_vt_clean _ _ _ _ hs1 h16]
    apply coalesce_deepND
    intro i
    rcases eq_or_ne i (octFin s p) with rfl | hne2
    · rw [Function.update_same]
      exact ih _ _ (s - 1) pixel (by omega) (hchild _) (hn.2 _)
    · rw [Function.update_noteq hne2]
      exact hn.2 i

/-- Per-voxel writes preserve the full compactness invariant. -/
theorem Set_compact (t : Vocel) (p : Point) (s pixel : Nat) (h16 : s ≤ 16)
    (hc : Compact s t) : Compact s (t.Set ⟨p, s⟩ pixel) :=
  ⟨Set_wfShape t p s pixel h16 hc.1, Set_noEq8 t p s pixel h16 hc.1 hc.2.1,
    Set_deepND t p s pixel h16 hc.1 hc.2.2⟩

theorem pix_v1 (v : Nat) : (Vocel.v1 v).pix = v := rfl

theorem point_eq_iff_fin (s : Nat) (p q : Point) (h1 : 1 ≤ s) (hp : inCube s p)
    (hq : inCube s q) :
    q = p ↔ octFin s q = octFin s p ∧ resOf s q = resOf s p := by
  rw [point_eq_iff s q p h1 hq hp]
  constructor
  · rintro ⟨ho, hr⟩
    exact ⟨Fin.ext ho, hr⟩
  · rintro ⟨ho, hr⟩
    exact ⟨congrArg Fin.val ho, hr⟩

/-- The frame rule for voxel writes: at any uint16 shift, a write changes
exactly the written in-range voxel and no other in-range voxel. -/
theorem Set_At_frame (t : Vocel) (cube : Cube) (pixel : Nat) :
    cube.sideShift ≤ 16 → WfShape cube.sideShift t → inCube cube.sideShift cube.point →
    ∀ q, inCube cube.sideShift q →
    (t.Set cube pixel).At ⟨q, cube.sideShift⟩ =
      if q = cube.point then pixel else t.At ⟨q, cube.sideShift⟩ := by
  induction t, cube, pixel using Vocel.Set.induct with
  | case1 v cube pixel hbase =>
    intro h16 hw hp q hq
    obtain ⟨p, s⟩ := cube
    rw [Set_v1_def, if_pos hbase]
    rcases hbase with hs0 | hpv
    · have hs0x : s = 0 := hs0
      subst hs0x
      have hq0 := (inCube_zero q).mp hq
      have hp0 := (inCube_zero p).mp hp
      rw [if_pos (hq0.trans hp0.symm)]
      rfl
    · subst hpv
      split <;> rfl
  | case2 v cube pixel hbase ih =>
    intro h16 hw hp q hq
    obtain ⟨p, s⟩ := cube
    simp only [not_or] at hbase
    obtain ⟨hs0, hpv⟩ := hbase
    have hs0x : ¬ s = 0 := hs0
    have hs1 : 1 ≤ s := by omega
    rw [Set_v1_def, if_neg (by simp only [not_or]; exact ⟨hs0, hpv⟩)]
    rw [ih h16 hs1 hp q hq]
    rw [At_v8_clean _ _ _ hs1 h16, At_v1]
  | case3 ps cube h =>
    intro h16 hw hp q hq
    obtain ⟨p, s⟩ := cube
    have hs1 : 1 ≤ s := hw
    have hvp : (⟨(octIndex ⟨p, s⟩).1, h⟩ : Fin 8) = octFin s p := by
      apply Fin.ext
      show (octIndex ⟨p, s⟩).1 = octOf s p
      rw [octIndex_eval s p hs1 h16]
    rw [hvp]
    have hset : (Vocel.v8 ps).Set ⟨p, s⟩ (ps (octFin s p)) = .v8 ps := by
      rw [Set_v8_clean _ _ _ _ hs1 h16, if_pos rfl]
    rw [hset]
    split
    · next hqp =>
      rw [At_v8_clean _ _ _ hs1 h16, hqp]
    · rfl
  | case4 ps cube pixel h hne hs1eq hall =>
    intro h16 hw hp q hq
    obtain ⟨p, s⟩ := cube
    simp only at hs1eq
    subst hs1eq
    have hvp : (⟨(octIndex ⟨p, 1⟩).1, h⟩ : Fin 8) = octFin 1 p := by
      apply Fin.ext
      show (octIndex ⟨p, 1⟩).1 = octOf 1 p
      rw [octIndex_eval 1 p (le_refl 1) (by norm_num)]
    have hv1 : (octIndex ⟨p, 1⟩).1 = octOf 1 p := by
      rw [octIndex_eval 1 p (le_refl 1) (by norm_num)]
    rw [hvp] at hne
    rw [hv1] at hall
    rw [Set_v8_clean _ _ _ _ (le_refl 1) h16]
    rw [if_neg hne, if_pos rfl, if_pos hall]
    rw [At_v1]
    split
    · rfl
    · next hqp =>
      rw [At_v8_clean _ _ _ (le_refl 1) h16]
      rw [allSameExcept_iff] at hall
      refine (hall (octFin 1 q) ?_).symm
      intro hoq
      apply hqp
      rw [point_eq_iff 1 q p (le_refl 1) hq hp, resOf_one, resOf_one]
      exact ⟨hoq, rfl⟩
  | case5 ps cube pixel h hne hs1eq hnall =>
    intro h16 hw hp q hq
    obtain ⟨p, s⟩ := cube
    simp only at hs1eq
    subst hs1eq
    have hvp : (⟨(octIndex ⟨p, 1⟩).1, h⟩ : Fin 8) = octFin 1 p := by
      apply Fin.ext
      show (octIndex ⟨p, 1⟩).1 = octOf 1 p
      rw [octIndex_eval 1 p (le_refl 1) (by norm_num)]
    have hv1 : (octIndex ⟨p, 1⟩).1 = octOf 1 p := by
      rw [octIndex_eval 1 p (le_refl 1) (by norm_num)]
    rw [hvp] at hne
    rw [hv1] at hnall
    rw [Set_v8_clean _ _ _ _ (le_refl 1) h16]
    rw [if_neg hne, if_pos rfl, if_neg hnall]
    rw [At_v8_clean _ _ _ (le_refl 1) h16]
    have hiff := point_eq_iff_fin 1 p q (le_refl 1) hp hq
    split
    · next hqp =>
      rw [((hiff.mp hqp).1 : octFin 1 q = octFin 1 p), Function.update_same]
    · next hqp =>
      rw [At_v8_clean _ _ _ (le_refl 1) h16]
      rw [Function.update_noteq]
      intro hc
      exact hqp (hiff.mpr ⟨hc, (resOf_one q).trans (resOf_one p).symm⟩)
  | case6 ps cube pixel h hne hsne ih =>
    intro h16 hw hp q hq
    obtain ⟨p, s⟩ := cube
    have hs1 : 1 ≤ s := hw
    have hvp : (⟨(octIndex ⟨p, s⟩).1, h⟩ : Fin 8) = octFin s p := by
      apply Fin.ext
      show (octIndex ⟨p, s⟩).1 = octOf s p
      rw [octIndex_eval s p hs1 h16]
    rw [hvp] at hne
    have hsne2 : ¬ s = 1 := by simpa using hsne
    rw [Set_v8_clean _ _ _ _ hs1 h16]
    rw [if_neg hne, if_neg hsne2]
    rw [ih h16 ⟨hs1, fun i => trivial⟩ hp q hq]
    rw [At_vt_clean _ _ _ hs1 h16, At_v1, At_v8_clean _ _ _ hs1 h16]
  | case7 ps cube pixel hov =>
    exact absurd (octIndex_fst_lt cube) hov
  | case8 cs cube pixel h ih =>
    intro h16 hw hp q hq
    obtain ⟨p, s⟩ := cube
    obtain ⟨hs1, hchild⟩ := hw
    have hvp : (⟨(octIndex ⟨p, s⟩).1, h⟩ : Fin 8) = octFin s p := by
      apply Fin.ext
      show (octIndex ⟨p, s⟩).1 = octOf s p
      rw [octIndex_eval s p hs1 h16]
    have hv2 : (octIndex ⟨p, s⟩).2 = ⟨resOf s p, s - 1⟩ := by
      rw [octIndex_eval s p hs1 h16]
    rw [hvp, hv2] at ih
    have h16x : s ≤ 16 := h16
    have h16m : s - 1 ≤ 16 := by omega
    have hrp : inCube (s - 1) (resOf s p) := resOf_inCube s p
    have hrq : inCube (s - 1) (resOf s q) := resOf_inCube s q
    have hIH : ∀ w, inCube (s - 1) w →
        ((cs (octFin s p)).Set ⟨resOf s p, s - 1⟩ pixel).At ⟨w, s - 1⟩ =
          if w = resOf s p then pixel else (cs (octFin s p)).At ⟨w, s - 1⟩ :=
      fun w hw2 => ih h16m (hchild _) hrp w hw2
    rw [Set_vt_clean _ _ _ _ hs1 h16]
    unfold coalesce
    have hiff := point_eq_iff_fin s p q hs1 hp hq
    set sub := (cs (octFin s p)).Set ⟨resOf s p, s - 1⟩ pixel with hsubdef
    set cs2 := Function.update cs (octFin s p) sub with hcs2
    have hUi : cs2 (octFin s p) = sub := by
      rw [hcs2]; exact Function.update_same _ _ _
    have hUj : ∀ j : Fin 8, j ≠ octFin s p → cs2 j = cs j := by
      intro j hj; rw [hcs2]; exact Function.update_noteq hj _ _
    by_cases hall2 : allV1 cs2 = true
    · rw [if_pos hall2]
      have hall := (allV1_iff cs2).mp hall2
      have hsubV1 : sub.isV1 := by rw [← hUi]; exact hall _
      obtain ⟨vs, hvs⟩ := (isV1_iff sub).mp hsubV1
      have hvs_pixel : vs = pixel := by
        have hh := hIH (resOf s p) hrp
        rw [if_pos rfl, hvs, At_v1] at hh
        exact hh
      by_cases hsame2 : allSamePix cs2 = true
      · rw [if_pos hsame2, At_v1]
        have hsame := (allSamePix_iff cs2).mp hsame2
        have hpix0 : (cs2 0).pix = pixel := by
          have h0 := hsame (octFin s p)
          rw [hUi, hvs, pix_v1] at h0
          rw [← h0, hvs_pixel]
        rw [hpix0]
        split
        · rfl
        · next hqp =>
          rw [At_vt_clean _ _ _ hs1 h16]
          rcases eq_or_ne (octFin s q) (octFin s p) with hji | hji
          · have hwr : resOf s q ≠ resOf s p := fun hc => hqp (hiff.mpr ⟨hji, hc⟩)
            have hthis := hIH (resOf s q) hrq
            rw [if_neg hwr, hvs, At_v1] at hthis
            rw [hji, ← hthis, hvs_pixel]
          · have hj := hall (octFin s q)
            rw [hUj _ hji] at hj
            obtain ⟨u, hu⟩ := (isV1_iff _).mp hj
            have hpixq := hsame (octFin s q)
            rw [hUj _ hji, hu, pix_v1] at hpixq
            rw [hu, At_v1, hpixq, hpix0]
      · rw [if_neg hsame2]
        have hAt8 : ∀ r : Point, (Vocel.v8 fun i => (cs2 i).pix).At ⟨r, s⟩ =
            (cs2 (octFin s r)).pix :=
          fun r => At_v8_clean (fun i => (cs2 i).pix) r s hs1 h16
        rw [hAt8]
        split
        · next hqp =>
          have hji := (hiff.mp hqp).1
          rw [hji, hUi, hvs, pix_v1]
          exact hvs_pixel
        · next hqp =>
          rw [At_vt_clean _ _ _ hs1 h16]
          rcases eq_or_ne (octFin s q) (octFin s p) with hji | hji
          · have hwr : resOf s q ≠ resOf s p := by
              intro hc
              exact hqp (hiff.mpr ⟨hji, hc⟩)
            have hthis := hIH (resOf s q) hrq
            rw [if_neg hwr, hvs, At_v1] at hthis
            rw [hji, hUi, hvs, pix_v1, hthis]
          · have hj := hall (octFin s q)
            rw [hUj _ hji] at hj
            obtain ⟨u, hu⟩ := (isV1_iff _).mp hj
            rw [hUj _ hji, hu, At_v1, pix_v1]
    · rw [if_neg hall2]
      rw [At_vt_clean _ _ _ hs1 h16]
      split
      · next hqp =>
        have hji := (hiff.mp hqp).1
        have hwr := (hiff.mp hqp).2
        rw [hji, hUi]
        have hthis := hIH (resOf s q) hrq
        rw [hwr] at hthis ⊢
        rw [hthis, if_pos rfl]
      · next hqp =>
        rw [At_vt_clean _ _ _ hs1 h16]
        rcases eq_or_ne (octFin s q) (octFin s p) with hji | hji
        · have hwr : resOf s q ≠ resOf s p := by
            intro hc
            exact hqp (hiff.mpr ⟨hji, hc⟩)
          have hthis := hIH (resOf s q) hrq
          rw [if_neg hwr] at hthis
          rw [hji, hUi, hthis]
        · rw [hUj _ hji]
  | case9 cs cube pixel hov =>
    exact absurd (octIndex_fst_lt cube) hov

/-- A Vocel1 returned by Set always carries the pixel that was written. -/
theorem Set_v1_val (t : Vocel) (cube : Cube) (pixel : Nat) :
    ∀ x, t.Set cube pixel = .v1 x → x = pixel := by
  induction t, cube, pixel using Vocel.Set.induct with
  | case1 v cube pixel hbase =>
    intro x hx
    rw [Set_v1_def, if_pos hbase] at hx
    injection hx with h
    exact h.symm
  | case2 v cube pixel hbase ih =>
    intro x hx
    rw [Set_v1_def, if_neg hbase] at hx
    exact ih x hx
  | case3 ps cube h =>
    intro x hx
    rw [Vocel.Set.eq_2, dif_pos h, if_pos rfl] at hx
    exact absurd hx (by simp)
  | case4 ps cube pixel h hne hseq hall =>
    intro x hx
    rw [Vocel.Set.eq_2, dif_pos h, if_neg hne, if_pos hseq, if_pos hall] at hx
    injection hx with hh
    exact hh.symm
  | case5 ps cube pixel h hne hseq hnall =>
    intro x hx
    rw [Vocel.Set.eq_2, dif_pos h, if_neg hne, if_pos hseq, if_neg hnall] at hx
    exact absurd hx (by simp)
  | case6 ps cube pixel h hne hsne ih =>
    intro x hx
    rw [Vocel.Set.eq_2, dif_pos h, if_neg hne, if_neg hsne] at hx
    exact ih x hx
  | case7 ps cube pixel hov =>
    exact absurd (octIndex_fst_lt cube) hov
  | case8 cs cube pixel h ih =>
    intro x hx
    rw [Vocel.Set.eq_3, dif_pos h] at hx
    unfold coalesce at hx
    split at hx
    · split at hx
      · next hall hsame =>
        injection hx with hh
        rw [allV1_iff] at hall
        have hsub := hall ⟨(octIndex cube).1, h⟩
        rw [Function.update_same] at hsub
        obtain ⟨u, hu⟩ := (isV1_iff _).mp hsub
        have hupix := ih u hu
        have hpixsub : ((cs ⟨(octIndex cube).1, h⟩).Set (octIndex cube).2 pixel).pix = pixel := by
          rw [hu, pix_v1]
          exact hupix
        have hs0 := (allSamePix_iff _).mp hsame ⟨(octIndex cube).1, h⟩
        rw [Function.update_same, hpixsub] at hs0
        rw [← hh, ← hs0]
      · exact absurd hx (by simp)
    · exact absurd hx (by simp)
  | case9 cs cube pixel hov =>
    exact absurd (octIndex_fst_lt cube) hov

/-- Writing the same pixel at the same cube twice is the same as writing it
once: the second write returns the tree unchanged. -/
theorem Set_idem (t : Vocel) (cube : Cube) (pixel : Nat) :
    (t.Set cube pixel).Set cube pixel = t.Set cube pixel := by
  induction t, cube, pixel using Vocel.Set.induct with
  | case1 v cube pixel hbase =>
    rw [Set_v1_def, if_pos hbase]
    rw [Set_v1_def, if_pos (Or.inr rfl)]
  | case2 v cube pixel hbase ih =>
    rw [Set_v1_def, if_neg hbase]
    exact ih
  | case3 ps cube h =>
    rw [Vocel.Set.eq_2, dif_pos h, if_pos rfl]
    rw [Vocel.Set.eq_2, dif_pos h, if_pos rfl]
  | case4 ps cube pixel h hne hseq hall =>
    rw [Vocel.Set.eq_2, dif_pos h, if_neg hne, if_pos hseq, if_pos hall]
    rw [Set_v1_def, if_pos (Or.inr rfl)]
  | case5 ps cube pixel h hne hseq hnall =>
    rw [Vocel.Set.eq_2, dif_pos h, if_neg hne, if_pos hseq, if_neg hnall]
    rw [Vocel.Set.eq_2, dif_pos h, if_pos (Function.update_same _ _ _)]
  | case6 ps cube pixel h hne hsne ih =>
    rw [Vocel.Set.eq_2, dif_pos h, if_neg hne, if_neg hsne]
    exact ih
  | case7 ps cube pixel hov =>
    exact absurd (octIndex_fst_lt cube) hov
  | case8 cs cube pixel h ih =>
    rw [Vocel.Set.eq_3, dif_pos h]
    unfold coalesce
    split
    · next hall =>
      split
      · next hsame =>
        have hV1 : (Function.update cs ⟨(octIndex cube).1, h⟩
            ((cs ⟨(octIndex cube).1, h⟩).Set (octIndex cube).2 pixel) 0).pix = pixel := by
          rw [allV1_iff] at hall
          have hsub := hall ⟨(octIndex cube).1, h⟩
          rw [Function.update_same] at hsub
          obtain ⟨u, hu⟩ := (isV1_iff _).mp hsub
          have hupix := Set_v1_val _ _ _ u hu
          have hpixsub : ((cs ⟨(octIndex cube).1, h⟩).Set (octIndex cube).2 pixel).pix = pixel := by
            rw [hu, pix_v1]
            exact hupix
          have hs0 := (allSamePix_iff _).mp hsame ⟨(octIndex cube).1, h⟩
          rw [Function.update_same, hpixsub] at hs0
          exact hs0.symm
        rw [Set_v1_def, if_pos (Or.inr hV1.symm)]
        rw [hV1]
      · next hsame =>
        have hV8 : (Function.update cs ⟨(octIndex cube).1, h⟩
            ((cs ⟨(octIndex cube).1, h⟩).Set (octIndex cube).2 pixel)
              ⟨(octIndex cube).1, h⟩).pix = pixel := by
          rw [allV1_iff] at hall
          have hsub := hall ⟨(octIndex cube).1, h⟩
          rw [Function.update_same] at hsub
          obtain ⟨u, hu⟩ := (isV1_iff _).mp hsub
          have hupix := Set_v1_val _ _ _ u hu
          rw [Function.update_same, hu, pix_v1]
          exact hupix
        rw [Vocel.Set.eq_2, dif_pos h, if_pos hV8]
    · next hnall =>
      rw [Vocel.Set.eq_3, dif_pos h, Function.update_same, ih, Function.update_idem]
      unfold coalesce
      rw [if_neg hnall]
  | case9 cs cube pixel hov =>
    exact absurd (octIndex_fst_lt cube) hov

/-!  Container-level facts: depth growth, plane folds, reachable states. -/

theorem resize_stop (v : Voctree) (z : Nat) (h : ¬ 1 <<< v.sideShift < z) :
    resizeSideShift v z = v := by
  rw [resizeSideShift, if_neg h]

theorem resize_le (v : Voctree) (z : Nat) :
    z ≤ 1 <<< (resizeSideShift v z).sideShift := by
  induction v, z using resizeSideShift.induct with
  | case1 v z hlt ih =>
    rw [resizeSideShift, if_pos hlt]
    exact ih
  | case2 v z hge =>
    rw [resizeSideShift, if_neg hge]
    exact Nat.le_of_not_lt hge

theorem resize_sideShift_ge (v : Voctree) (z : Nat) :
    v.sideShift ≤ (resizeSideShift v z).sideShift := by
  induction v, z using resizeSideShift.induct with
  | case1 v z hlt ih =>
    rw [resizeSideShift, if_pos hlt]
    have hws : (wrapRoot v).sideShift = v.sideShift + 1 := rfl
    omega
  | case2 v z hge =>
    rw [resizeSideShift, if_neg hge]

theorem resize_sizes (v : Voctree) (z : Nat) :
    (resizeSideShift v z).sizeX = v.sizeX ∧ (resizeSideShift v z).sizeY = v.sizeY := by
  induction v, z using resizeSideShift.induct with
  | case1 v z hlt ih =>
    rw [resizeSideShift, if_pos hlt]
    exact ih
  | case2 v z hge =>
    rw [resizeSideShift, if_neg hge]
    exact ⟨rfl, rfl⟩

theorem wrapRoot_sound (v : Voctree)
    (hw : WfShape v.sideShift v.vocelish) (hn : NoEq8 v.vocelish) :
    WfShape (wrapRoot v).sideShift (wrapRoot v).vocelish ∧ NoEq8 (wrapRoot v).vocelish := by
  refine ⟨⟨?_, ?_⟩, ?_⟩
  · show 1 ≤ v.sideShift + 1
    omega
  · intro i
    show WfShape (v.sideShift + 1 - 1) (if i = 0 then v.vocelish else .v1 0)
    split
    · simpa using hw
    · trivial
  · intro i
    show NoEq8 (if i = 0 then v.vocelish else .v1 0)
    split
    · exact hn
    · trivial

theorem resize_sound (v : Voctree) (z : Nat)
    (hw : WfShape v.sideShift v.vocelish) (hn : NoEq8 v.vocelish) :
    WfShape (resizeSideShift v z).sideShift (resizeSideShift v z).vocelish ∧
      NoEq8 (resizeSideShift v z).vocelish := by
  induction v, z using resizeSideShift.induct with
  | case1 v z hlt ih =>
    rw [resizeSideShift, if_pos hlt]
    obtain ⟨h1, h2⟩ := wrapRoot_sound v hw hn
    exact ih h1 h2
  | case2 v z hge =>
    rw [resizeSideShift, if_neg hge]
    exact ⟨hw, hn⟩

/-- Folding any invariant-preserving step over a list preserves the
invariant of the container. -/
theorem foldl_voctree_inv {α : Type} (Q : Voctree → Prop) (f : Voctree → α → Voctree)
    (hf : ∀ a x, Q a → Q (f a x)) :
    ∀ (l : List α) (v0 : Voctree), Q v0 → Q (l.foldl f v0) := by
  intro l
  induction l with
  | nil => intro v0 h; exact h
  | cons x xs ih =>
    intro v0 h
    exact ih _ (hf _ _ h)

/-- The write-only reachable states: construction plus per-voxel writes. -/
inductive ReachableW : Voctree → Prop where
  | new : ∀ sx sy, ReachableW (newVoctree sx sy)
  | set : ∀ v p c, ReachableW v → ReachableW (v.Set p c)

/-- All reachable states: construction, per-voxel writes, and the two
plane operations (which can grow depth). -/
inductive Reachable : Voctree → Prop where
  | new : ∀ sx sy, Reachable (newVoctree sx sy)
  | set : ∀ v p c, Reachable v → Reachable (v.Set p c)
  | planeSet : ∀ v z pix, Reachable v → Reachable (setPlane v z pix).1
  | planeGet : ∀ v z, Reachable v → Reachable (getPlane v z).2

theorem voctreeSet_fields (v : Voctree) (p : Point) (c : Nat) :
    (v.Set p c).sideShift = v.sideShift ∧ (v.Set p c).sizeX = v.sizeX ∧
      (v.Set p c).sizeY = v.sizeY ∧
      (v.Set p c).vocelish = v.vocelish.Set ⟨p, v.sideShift⟩ c :=
  ⟨rfl, rfl, rfl, rfl⟩

/-- Construction plus per-voxel writes always yield the compact invariant
(for uint16 shifts). -/
theorem ReachableW_compact (v : Voctree) (hr : ReachableW v) (h16 : v.sideShift ≤ 16) :
    Compact v.sideShift v.vocelish := by
  induction hr with
  | new sx sy => exact ⟨trivial, trivial, trivial⟩
  | set w p c hw ih =>
    have hsh : (w.Set p c).sideShift = w.sideShift := rfl
    rw [hsh] at h16 ⊢
    exact Set_compact w.vocelish p w.sideShift c h16 (ih h16)

/-- The state invariant needed for every reachable volume: the plane fold
of setPlane preserves it. -/
theorem setPlane_state (v : Voctree) (z : Nat) (pix : List Nat)
    (hlen : ¬ pix.length ≠ v.sizeX * v.sizeY) :
    (setPlane v z pix).2 = none ∧
      (setPlane v z pix).1.sideShift = (resizeSideShift v z).sideShift ∧
      (setPlane v z pix).1.sizeX = v.sizeX ∧ (setPlane v z pix).1.sizeY = v.sizeY ∧
      ((WfShape v.sideShift v.vocelish ∧ NoEq8 v.vocelish ∧
          (resizeSideShift v z).sideShift ≤ 16) →
        WfShape (setPlane v z pix).1.sideShift (setPlane v z pix).1.vocelish ∧
          NoEq8 (setPlane v z pix).1.vocelish) := by
  rw [setPlane, if_neg hlen]
  have hszs := resize_sizes v z
  set v2 := resizeSideShift v z with hv2
  have main : ∀ (Q : Voctree → Prop),
      (∀ (a : Voctree) (cube : Cube) (px : Nat), cube.sideShift = v2.sideShift → Q a →
        Q ({ a with vocelish := a.vocelish.Set cube px })) →
      Q v2 →
      Q ((List.range v2.sizeY).foldl (fun acc y =>
        (List.range acc.sizeX).foldl (fun acc2 x =>
          let cube := Cube.mk (Point.mk (u16 x) (u16 y) (u16 z)) v2.sideShift
          { acc2 with vocelish := acc2.vocelish.Set cube (pix.getD (y * v2.sizeX + x) 0) })
          acc) v2) := by
    intro Q hQ hQ0
    apply foldl_voctree_inv Q _ ?_ _ _ hQ0
    intro a y hQa
    apply foldl_voctree_inv Q _ ?_ _ _ hQa
    intro a2 x hQa2
    exact hQ a2 _ _ rfl hQa2
  refine ⟨rfl, ?_, ?_, ?_, ?_⟩
  · exact main (fun a => a.sideShift = v2.sideShift) (fun a cube px hc hq => hq) rfl
  · have hh := main (fun a => a.sizeX = v2.sizeX) (fun a cube px hc hq => hq) rfl
    rw [hh]
    exact hszs.1
  · have hh := main (fun a => a.sizeY = v2.sizeY) (fun a cube px hc hq => hq) rfl
    rw [hh]
    exact hszs.2
  · intro hcond
    obtain ⟨hwf, hne, h16⟩ := hcond
    obtain ⟨hwf2, hne2⟩ := resize_sound v z hwf hne
    have hh := main (fun a => a.sideShift = v2.sideShift ∧
        WfShape v2.sideShift a.vocelish ∧ NoEq8 a.vocelish)
      (fun a cube px hc hq => by
        refine ⟨hq.1, ?_, ?_⟩
        · have hcc : a.vocelish.Set cube px =
              a.vocelish.Set ⟨cube.point, v2.sideShift⟩ px := by
            rw [← hc]
          rw [hcc]
          exact Set_wfShape a.vocelish cube.point v2.sideShift px h16 hq.2.1
        · have hcc : a.vocelish.Set cube px =
              a.vocelish.Set ⟨cube.point, v2.sideShift⟩ px := by
            rw [← hc]
          rw [hcc]
          exact Set_noEq8 a.vocelish cube.point v2.sideShift px h16 hq.2.1 hq.2.2)
      ⟨rfl, hwf2, hne2⟩
    rw [hh.1]
    exact ⟨hh.2.1, hh.2.2⟩

theorem getPlane_state (v : Voctree) (z : Nat) :
    (getPlane v z).2 = resizeSideShift v z := rfl

/-- Every reachable volume at a uint16 shift has a sound shape and no
all-equal Vocel8. -/
theorem Reachable_sound (v : Voctree) (hr : Reachable v) (h16 : v.sideShift ≤ 16) :
    WfShape v.sideShift v.vocelish ∧ NoEq8 v.vocelish := by
  induction hr with
  | new sx sy => exact ⟨trivial, trivial⟩
  | set w p c hw ih =>
    have hsh : (w.Set p c).sideShift = w.sideShift := rfl
    rw [hsh] at h16 ⊢
    obtain ⟨h1, h2⟩ := ih h16
    exact ⟨Set_wfShape w.vocelish p w.sideShift c h16 h1,
      Set_noEq8 w.vocelish p w.sideShift c h16 h1 h2⟩
  | planeSet w z2 pix hw ih =>
    by_cases hlen : pix.length ≠ w.sizeX * w.sizeY
    · rw [setPlane, if_pos hlen] at h16 ⊢
      exact ih h16
    · obtain ⟨_, hsh, _, _, hsound⟩ := setPlane_state w z2 pix hlen
      rw [hsh] at h16
      have hw16 : w.sideShift ≤ 16 :=
        le_trans (resize_sideShift_ge w z2) h16
      obtain ⟨h1, h2⟩ := ih hw16
      rw [hsh]
      have := hsound ⟨h1, h2, h16⟩
      rwa [hsh] at this
  | planeGet w z2 hw ih =>
    rw [getPlane_state] at h16 ⊢
    have hw16 : w.sideShift ≤ 16 :=
      le_trans (resize_sideShift_ge w z2) h16
    obtain ⟨h1, h2⟩ := ih hw16
    exact resize_sound w z2 h1 h2

/-!  The covering-writes argument: a tree whose every in-range voxel has
been written with one value collapses to a single Vocel1. -/

/-- Every in-range voxel of the side-2^s cube satisfies P. -/
def allWr (s : Nat) (P : Point → Prop) : Prop := ∀ q, inCube s q → P q

/-- Relative to a set P of voxels written so far: every VocelTree whose
entire region is inside P has a child that is not a Vocel1. -/
def NoDead : Nat → (Point → Prop) → Vocel → Prop
  | _, _, .v1 _ => True
  | _, _, .v8 _ => True
  | s, P, .vt cs => (allWr s P → ∃ i : Fin 8, ¬ (cs i).isV1) ∧
      ∀ i : Fin 8, NoDead (s - 1) (fun q => P (embed s (i : Nat) q)) (cs i)

theorem DeepND_noDead (t : Vocel) : ∀ (s : Nat) (P : Point → Prop), DeepND t → NoDead s P t := by
  induction t with
  | v1 v => intro s P _; trivial
  | v8 ps => intro s P _; trivial
  | vt cs ih =>
    intro s P hd
    exact ⟨fun _ => hd.1, fun i => ih i _ _ (hd.2 i)⟩

theorem NoDead_congr (t : Vocel) : ∀ (s : Nat) (P P2 : Point → Prop), WfShape s t →
    (∀ q, inCube s q → (P q ↔ P2 q)) → NoDead s P t → NoDead s P2 t := by
  induction t with
  | v1 v => intro s P P2 _ _ _; trivial
  | v8 ps => intro s P P2 _ _ _; trivial
  | vt cs ih =>
    intro s P P2 hw hiff hnd
    obtain ⟨hs1, hch⟩ := hw
    constructor
    · intro hall
      exact hnd.1 (fun q hq => (hiff q hq).mpr (hall q hq))
    · intro i
      apply ih i (s - 1) _ _ (hch i) _ (hnd.2 i)
      intro q hq
      exact hiff _ (inCube_embed s (i : Nat) q hs1 i.isLt hq)

theorem noDeadFull (t : Vocel) : ∀ (s : Nat) (P : Point → Prop), WfShape s t →
    NoDead s P t → allWr s P → DeepND t := by
  induction t with
  | v1 v => intro s P _ _ _; trivial
  | v8 ps => intro s P _ _ _; trivial
  | vt cs ih =>
    intro s P hw hnd hall
    obtain ⟨hs1, hch⟩ := hw
    refine ⟨hnd.1 hall, fun i => ?_⟩
    apply ih i (s - 1) _ (hch i) (hnd.2 i)
    intro q hq
    exact hall _ (inCube_embed s (i : Nat) q hs1 i.isLt hq)

theorem coalesce_noDead (s : Nat) (P : Point → Prop) (cs2 : Fin 8 → Vocel)
    (h : ∀ i : Fin 8, NoDead (s - 1) (fun q => P (embed s (i : Nat) q)) (cs2 i)) :
    NoDead s P (coalesce cs2) := by
  unfold coalesce
  split
  · split
    · trivial
    · trivial
  · next hnall =>
    constructor
    · intro _
      rw [allV1_iff] at hnall
      push_neg at hnall
      obtain ⟨i, hi⟩ := hnall
      exact ⟨i, by simpa using hi⟩
    · exact h

/-- A write extends the written set by its own voxel while preserving
NoDead. -/
theorem noDead_Set (t : Vocel) : ∀ (p : Point) (s pixel : Nat) (P : Point → Prop),
    s ≤ 16 → WfShape s t → inCube s p → NoDead s P t →
    NoDead s (fun q => P q ∨ q = p) (t.Set ⟨p, s⟩ pixel) := by
  induction t with
  | v1 v =>
    intro p s pixel P h16 hw hp hnd
    rcases eq_or_ne pixel v with rfl | hpv
    · rw [Set_v1_def, if_pos (Or.inr rfl)]; trivial
    rcases Nat.eq_zero_or_pos s with rfl | hs
    · rw [Set_v1_def, if_pos (Or.inl rfl)]; trivial
    obtain ⟨n, rfl⟩ : ∃ n, s = n + 1 := ⟨s - 1, by omega⟩
    exact DeepND_noDead _ _ _ (splitV1_compact n (by omega) v pixel p hpv).1.2.2
  | v8 ps =>
    intro p s pixel P h16 hw hp hnd
    have hs1 : 1 ≤ s := hw
    rw [Set_v8_clean _ _ _ _ hs1 h16]
    split
    · trivial
    · next hne =>
      split
      · split
        · trivial
        · trivial
      · next hsne =>
        rw [Set_vt_clean _ _ _ _ hs1 h16]
        obtain ⟨n, rfl⟩ : ∃ n, s = n + 2 := ⟨s - 2, by omega⟩
        have hsd : n + 2 - 1 = n + 1 := by omega
        obtain ⟨hc, hv⟩ := splitV1_compact n (by omega) (ps (octFin (n + 2) p)) pixel
          (resOf (n + 2) p) (fun hcc => hne hcc.symm)
        apply coalesce_noDead
        intro i
        rcases eq_or_ne i (octFin (n + 2) p) with rfl | hne2
        · rw [Function.update_same]
          exact DeepND_noDead _ _ _ hc.2.2
        · rw [Function.update_noteq hne2]
          trivial
  | vt cs ih =>
    intro p s pixel P h16 hw hp hnd
    obtain ⟨hs1, hch⟩ := hw
    rw [Set_vt_clean _ _ _ _ hs1 h16]
    apply coalesce_noDead
    intro i
    rcases eq_or_ne i (octFin s p) with rfl | hne2
    · rw [Function.update_same]
      have hsub := ih (octFin s p) (resOf s p) (s - 1) pixel
        (fun q => P (embed s ((octFin s p) : Nat) q)) (by omega) (hch _)
        (resOf_inCube s p) (hnd.2 _)
      apply NoDead_congr _ (s - 1) _ _
        (Set_wfShape (cs (octFin s p)) (resOf s p) (s - 1) pixel (by omega) (hch _)) _ hsub
      intro q hq
      constructor
      · intro hor
        rcases hor with hP | hq2
        · exact Or.inl hP
        · refine Or.inr ?_
          rw [hq2]
          exact embed_decomp s p hs1 hp
      · intro hor
        rcases hor with hP | hq2
        · exact Or.inl hP
        · refine Or.inr ?_
          have := (embed_octOf s ((octFin s p) : Nat) q (octFin s p).isLt hq).2
          rw [hq2] at this
          exact this.symm
    · rw [Function.update_noteq hne2]
      apply NoDead_congr _ (s - 1) _ _ (hch i) _ (hnd.2 i)
      intro q hq
      constructor
      · exact fun hP => Or.inl hP
      · intro hor
        rcases hor with hP | hq2
        · exact hP
        · exfalso
          have hoct := (embed_octOf s (i : Nat) q i.isLt hq).1
          rw [hq2] at hoct
          exact hne2 (Fin.ext hoct.symm)

/-- A tree whose every in-range read returns one pixel, with a sound
shape, no all-equal Vocel8 and no dead VocelTree, is a single Vocel1. -/
theorem finUniform (t : Vocel) : ∀ (s pixel : Nat), s ≤ 16 → WfShape s t → NoEq8 t →
    DeepND t → (∀ p, inCube s p → t.At ⟨p, s⟩ = pixel) → t = .v1 pixel := by
  induction t with
  | v1 v =>
    intro s pixel _ _ _ _ hAt
    have h0 : inCube s ⟨0, 0, 0⟩ :=
      ⟨Nat.pos_pow_of_pos _ (by norm_num), Nat.pos_pow_of_pos _ (by norm_num),
        Nat.pos_pow_of_pos _ (by norm_num)⟩
    have := hAt ⟨0, 0, 0⟩ h0
    rw [At_v1] at this
    rw [this]
  | v8 ps =>
    intro s pixel h16 hw hn _ hAt
    have hs1 : 1 ≤ s := hw
    exfalso
    apply hn
    intro i
    have h0 : inCube (s - 1) (⟨0, 0, 0⟩ : Point) :=
      ⟨Nat.pos_pow_of_pos _ (by norm_num), Nat.pos_pow_of_pos _ (by norm_num),
        Nat.pos_pow_of_pos _ (by norm_num)⟩
    have hval : ∀ j : Fin 8, ps j = pixel := by
      intro j
      have hin := inCube_embed s (j : Nat) ⟨0, 0, 0⟩ hs1 j.isLt h0
      have := hAt (embed s (j : Nat) ⟨0, 0, 0⟩) hin
      rw [At_v8_clean _ _ _ hs1 h16] at this
      have hoct := (embed_octOf s (j : Nat) ⟨0, 0, 0⟩ j.isLt h0).1
      have hfin : octFin s (embed s (j : Nat) ⟨0, 0, 0⟩) = j := Fin.ext hoct
      rwa [hfin] at this
    rw [hval i, hval 0]
  | vt cs ih =>
    intro s pixel h16 hw hn hd hAt
    obtain ⟨hs1, hch⟩ := hw
    obtain ⟨⟨j, hj⟩, hchD⟩ := hd
    exfalso
    apply hj
    have hcj : cs j = .v1 pixel := by
      apply ih j (s - 1) pixel (by omega) (hch j) (hn j) (hchD j)
      intro q hq
      have hin := inCube_embed s (j : Nat) q hs1 j.isLt hq
      have := hAt (embed s (j : Nat) q) hin
      rw [At_vt_clean _ _ _ hs1 h16] at this
      have hemb := embed_octOf s (j : Nat) q j.isLt hq
      have hfin : octFin s (embed s (j : Nat) q) = j := Fin.ext hemb.1
      rw [hfin, hemb.2] at this
      exact this
    rw [hcj]
    simp [Vocel.isV1]

/-- Folding writes of one pixel that cover every in-range voxel collapses
the tree to a single Vocel1 of that pixel. -/
theorem writes_cover_uniform : ∀ (ws : List Point) (t : Vocel) (s pixel : Nat)
    (P : Point → Prop), s ≤ 16 → WfShape s t → NoEq8 t → NoDead s P t →
    (∀ q, inCube s q → P q → t.At ⟨q, s⟩ = pixel) →
    (∀ p ∈ ws, inCube s p) →
    (∀ q, inCube s q → P q ∨ q ∈ ws) →
    ws.foldl (fun t2 p => t2.Set ⟨p, s⟩ pixel) t = .v1 pixel := by
  intro ws
  induction ws with
  | nil =>
    intro t s pixel P h16 hw hn hnd hAt _ hcov
    have hall : allWr s P := by
      intro q hq
      rcases hcov q hq with hP | hmem
      · exact hP
      · exact absurd hmem (by simp)
    exact finUniform t s pixel h16 hw hn (noDeadFull t s P hw hnd hall)
      (fun p hp => hAt p hp (hall p hp))
  | cons p ws ih =>
    intro t s pixel P h16 hw hn hnd hAt hws hcov
    rw [List.foldl_cons]
    have hp : inCube s p := hws p (by simp)
    apply ih (t.Set ⟨p, s⟩ pixel) s pixel (fun q => P q ∨ q = p) h16
      (Set_wfShape t p s pixel h16 hw) (Set_noEq8 t p s pixel h16 hw hn)
      (noDead_Set t p s pixel P h16 hw hp hnd)
    · intro q hq hPq
      rw [Set_At_frame t ⟨p, s⟩ pixel h16 hw hp q hq]
      rcases hPq with hP | hqp
      · split
        · rfl
        · exact hAt q hq hP
      · rw [if_pos hqp]
    · intro p2 hp2
      exact hws p2 (by simp [hp2])
    · intro q hq
      rcases hcov q hq with hP | hmem
      · exact Or.inl (Or.inl hP)
      · rcases List.mem_cons.mp hmem with rfl | hmem2
        · exact Or.inl (Or.inr rfl)
        · exact Or.inr hmem2

theorem one_lt_Nodes (t : Vocel) (h : ¬ t.isV1 = true) : 1 < t.Nodes := by
  cases t with
  | v1 v => exact absurd rfl h
  | v8 ps => simp [Vocel.Nodes]
  | vt cs =>
    have h0 := Nodes_pos (cs 0)
    have h1 := Nodes_pos (cs 1)
    simp only [Vocel.Nodes]
    omega

/-- Two cubes with the same octant decomposition and the same shift are
treated identically by At. -/
theorem At_cube_congr (t : Vocel) (c1 c2 : Cube) (hoct : octIndex c1 = octIndex c2) :
    t.At c1 = t.At c2 := by
  cases t with
  | v1 v => rfl
  | v8 ps => simp only [Vocel.At, hoct]
  | vt cs => simp only [Vocel.At, hoct]

/-- Two cubes with the same octant decomposition and the same shift are
treated identically by Set. -/
theorem Set_cube_congr (t : Vocel) (c1 : Cube) (pixel : Nat) :
    ∀ c2 : Cube, octIndex c1 = octIndex c2 → c1.sideShift = c2.sideShift →
      t.Set c1 pixel = t.Set c2 pixel := by
  induction t, c1, pixel using Vocel.Set.induct with
  | case1 v cube pixel hbase =>
    intro c2 hoct hss
    rw [Set_v1_def, if_pos hbase, Set_v1_def, if_pos (hss ▸ hbase)]
  | case2 v cube pixel hbase ih =>
    intro c2 hoct hss
    rw [Set_v1_def, if_neg hbase, Set_v1_def, if_neg (hss ▸ hbase)]
    exact ih c2 hoct hss
  | case3 ps cube h =>
    intro c2 hoct hss
    have h2 : (octIndex c2).1 < 8 := hoct ▸ h
    have hfin : (⟨(octIndex c2).1, h2⟩ : Fin 8) = ⟨(octIndex cube).1, h⟩ :=
      Fin.ext (congrArg Prod.fst hoct).symm
    rw [Vocel.Set.eq_2, dif_pos h, if_pos rfl]
    rw [Vocel.Set.eq_2, dif_pos h2, if_pos (by rw [hfin])]
  | case4 ps cube pixel h hne hseq hall =>
    intro c2 hoct hss
    have h2 : (octIndex c2).1 < 8 := hoct ▸ h
    have hfin : (⟨(octIndex c2).1, h2⟩ : Fin 8) = ⟨(octIndex cube).1, h⟩ :=
      Fin.ext (congrArg Prod.fst hoct).symm
    rw [Vocel.Set.eq_2, dif_pos h, if_neg hne, if_pos hseq, if_pos hall]
    rw [Vocel.Set.eq_2, dif_pos h2, if_neg (by rw [hfin]; exact hne),
      if_pos (hss ▸ hseq), if_pos (by rw [← congrArg Prod.fst hoct]; exact hall)]
  | case5 ps cube pixel h hne hseq hnall =>
    intro c2 hoct hss
    have h2 : (octIndex c2).1 < 8 := hoct ▸ h
    have hfin : (⟨(octIndex c2).1, h2⟩ : Fin 8) = ⟨(octIndex cube).1, h⟩ :=
      Fin.ext (congrArg Prod.fst hoct).symm
    rw [Vocel.Set.eq_2, dif_pos h, if_neg hne, if_pos hseq, if_neg hnall]
    rw [Vocel.Set.eq_2, dif_pos h2, if_neg (by rw [hfin]; exact hne),
      if_pos (hss ▸ hseq), if_neg (by rw [← congrArg Prod.fst hoct]; exact hnall),
      hfin]
  | case6 ps cube pixel h hne hsne ih =>
    intro c2 hoct hss
    have h2 : (octIndex c2).1 < 8 := hoct ▸ h
    have hfin : (⟨(octIndex c2).1, h2⟩ : Fin 8) = ⟨(octIndex cube).1, h⟩ :=
      Fin.ext (congrArg Prod.fst hoct).symm
    rw [Vocel.Set.eq_2, dif_pos h, if_neg hne, if_neg hsne]
    rw [Vocel.Set.eq_2, dif_pos h2, if_neg (by rw [hfin]; exact hne),
      if_neg (hss ▸ hsne)]
    exact ih c2 hoct hss
  | case7 ps cube pixel hov =>
    exact absurd (octIndex_fst_lt cube) hov
  | case8 cs cube pixel h ih =>
    intro c2 hoct hss
    have h2 : (octIndex c2).1 < 8 := hoct ▸ h
    have hfin : (⟨(octIndex c2).1, h2⟩ : Fin 8) = ⟨(octIndex cube).1, h⟩ :=
      Fin.ext (congrArg Prod.fst hoct).symm
    rw [Vocel.Set.eq_3, dif_pos h, Vocel.Set.eq_3, dif_pos h2, hfin,
      ← congrArg Prod.snd hoct]
  | case9 cs cube pixel hov =>
    exact absurd (octIndex_fst_lt cube) hov

/-- Modelled from the spec (section 4.2): splitting a UniformLeaf
materializes an InternalNode whose eight children are UniformLeafs
carrying the original value, then delegates the write into it. -/
def uniformSplitSpec (v : Nat) (cube : Cube) (pixel : Nat) : Vocel :=
  (Vocel.vt (fun _ => .v1 v)).Set cube pixel

/-!  Helpers for the claim theorems: the empty written set, concrete-state
normalization of the small reachable states used as counterexample inputs,
and the growth-commutation toolkit for plane addressing. -/

/-- The empty written set satisfies NoDead on every tree. -/
theorem noDead_false (t : Vocel) : ∀ s : Nat, NoDead s (fun _ => False) t := by
  induction t with
  | v1 v => intro s; trivial
  | v8 ps => intro s; trivial
  | vt cs ih =>
    intro s
    constructor
    · intro hall
      exact absurd (hall ⟨0, 0, 0⟩ ⟨Nat.pos_pow_of_pos _ (by norm_num),
        Nat.pos_pow_of_pos _ (by norm_num), Nat.pos_pow_of_pos _ (by norm_num)⟩) id
    · intro i
      exact ih i (s - 1)

/-- The child array built by Go resizeSideShift: the old root in octant 0,
zero Vocel1 leaves elsewhere. -/
def spineCs (a : Vocel) : Fin 8 → Vocel := fun i => if i = 0 then a else .v1 0

theorem growShift_one : growShift 1 0 = 0 := by
  rw [growShift, if_neg (by decide)]

theorem newVoctree_one : newVoctree 1 1 = ⟨.v1 0, 1, 1, 0⟩ := by
  unfold newVoctree
  rw [growShift_one, growShift_one]

theorem resize_step (v : Voctree) (z : Nat) (h : 1 <<< v.sideShift < z) :
    resizeSideShift v z = resizeSideShift (wrapRoot v) z := by
  rw [resizeSideShift, if_pos h]

theorem resize2_eq :
    resizeSideShift ⟨.v1 0, 1, 1, 0⟩ 2 = ⟨.vt (spineCs (.v1 0)), 1, 1, 1⟩ := by
  rw [resize_step _ _ (by decide)]
  exact resize_stop _ _ (by decide)

theorem resize3_eq :
    resizeSideShift ⟨.v1 0, 1, 1, 0⟩ 3 =
      ⟨.vt (spineCs (.vt (spineCs (.v1 0)))), 1, 1, 2⟩ := by
  rw [resize_step _ _ (by decide), resize_step _ _ (by decide)]
  exact resize_stop _ _ (by decide)

/-- A spine node whose distinguished child reads 0 everywhere reads 0
everywhere. -/
theorem spine_At_zero (a : Vocel) (ha : ∀ cube : Cube, a.At cube = 0) :
    ∀ cube : Cube, (Vocel.vt (spineCs a)).At cube = 0 := by
  intro cube
  simp only [Vocel.At]
  split
  · next h =>
    by_cases h0 : (⟨(octIndex cube).1, h⟩ : Fin 8) = 0
    · rw [show spineCs a ⟨(octIndex cube).1, h⟩ = a from by simp [spineCs, h0]]
      exact ha _
    · rw [show spineCs a ⟨(octIndex cube).1, h⟩ = .v1 0 from by simp [spineCs, h0]]
      rfl
  · rfl

theorem update_spine_self (a : Vocel) (i : Fin 8) (hi : i ≠ 0) :
    Function.update (spineCs a) i (Vocel.v1 0) = spineCs a := by
  have h : spineCs a i = Vocel.v1 0 := by simp [spineCs, hi]
  rw [← h]
  exact Function.update_eq_self i (spineCs a)

theorem octOf_eq_zero_iff (s : Nat) (p : Point) :
    octOf (s + 1) p = 0 ↔ p.x < 2 ^ s ∧ p.y < 2 ^ s ∧ p.z < 2 ^ s := by
  unfold octOf
  rw [show s + 1 - 1 = s from rfl]
  split_ifs <;> first
  | omega
  | (simp only [false_iff, true_iff]; omega)

theorem inCube_mono (s : Nat) (p : Point) (h : inCube s p) : inCube (s + 1) p := by
  obtain ⟨h1, h2, h3⟩ := h
  have hp : 2 ^ s < 2 ^ (s + 1) := Nat.pow_lt_pow_right (by norm_num) (by omega)
  exact ⟨by omega, by omega, by omega⟩

theorem resOf_id (s : Nat) (p : Point) (hp : inCube s p) : resOf (s + 1) p = p := by
  obtain ⟨h1, h2, h3⟩ := hp
  unfold resOf
  rw [show s + 1 - 1 = s from rfl]
  cases p with
  | mk a b c =>
    simp only [Point.mk.injEq]
    exact ⟨Nat.mod_eq_of_lt h1, Nat.mod_eq_of_lt h2, Nat.mod_eq_of_lt h3⟩

/-- Wrapping the root leaves every read inside the original cube alone. -/
theorem wrap_At_low (v : Voctree) (p : Point) (h16 : v.sideShift + 1 ≤ 16)
    (hp : inCube v.sideShift p) : (wrapRoot v).At p = v.At p := by
  show (Vocel.vt (fun i => if i = 0 then v.vocelish else .v1 0)).At
      ⟨p, v.sideShift + 1⟩ = v.vocelish.At ⟨p, v.sideShift⟩
  rw [At_vt_clean _ _ _ (by omega) h16]
  have hfin : octFin (v.sideShift + 1) p = 0 :=
    Fin.ext ((octOf_eq_zero_iff v.sideShift p).mpr hp)
  rw [hfin]
  rw [if_pos rfl]
  rw [resOf_id _ _ hp, show v.sideShift + 1 - 1 = v.sideShift from rfl]

/-- Depth growth leaves every read inside the original cube alone. -/
theorem resize_At_low (v : Voctree) (z : Nat) :
    ∀ p, inCube v.sideShift p → (resizeSideShift v z).sideShift ≤ 16 →
    (resizeSideShift v z).At p = v.At p := by
  induction v, z using resizeSideShift.induct with
  | case1 v z hlt ih =>
    intro p hp h16
    rw [resize_step _ _ hlt] at h16 ⊢
    have hws : (wrapRoot v).sideShift = v.sideShift + 1 := rfl
    have hp1 : inCube (wrapRoot v).sideShift p := by rw [hws]; exact inCube_mono _ _ hp
    rw [ih p hp1 h16]
    apply wrap_At_low _ _ _ hp
    have hge := resize_sideShift_ge (wrapRoot v) z
    rw [hws] at hge
    omega
  | case2 v z hge =>
    intro p hp h16
    rw [resize_stop _ _ hge]

/-- Wrapping preserves "all reads at or above plane 2^s0 are zero". -/
theorem wrap_At_zero (v : Voctree) (s0 : Nat) (h16 : v.sideShift + 1 ≤ 16)
    (hv : ∀ p, inCube v.sideShift p → 2 ^ s0 ≤ p.z → v.At p = 0) :
    ∀ p, inCube (v.sideShift + 1) p → 2 ^ s0 ≤ p.z → (wrapRoot v).At p = 0 := by
  intro p hp hz
  show (Vocel.vt (fun i => if i = 0 then v.vocelish else .v1 0)).At
      ⟨p, v.sideShift + 1⟩ = 0
  rw [At_vt_clean _ _ _ (by omega) h16]
  by_cases h0 : octFin (v.sideShift + 1) p = 0
  · have hlow := (octOf_eq_zero_iff v.sideShift p).mp (congrArg Fin.val h0)
    rw [h0]
    rw [if_pos rfl]
    rw [resOf_id _ _ hlow, show v.sideShift + 1 - 1 = v.sideShift from rfl]
    exact hv p hlow hz
  · rw [if_neg h0]
    rfl

/-- Depth growth preserves "all reads at or above plane 2^s0 are zero":
the zero-filled octants added by growth read 0 there. -/
theorem resize_At_zero (v : Voctree) (z : Nat) (s0 : Nat) :
    (∀ p, inCube v.sideShift p → 2 ^ s0 ≤ p.z → v.At p = 0) →
    (resizeSideShift v z).sideShift ≤ 16 →
    ∀ p, inCube (resizeSideShift v z).sideShift p → 2 ^ s0 ≤ p.z →
      (resizeSideShift v z).At p = 0 := by
  induction v, z using resizeSideShift.induct with
  | case1 v z hlt ih =>
    intro hv h16 p hp hz
    rw [resize_step _ _ hlt] at h16 hp ⊢
    have h16w : v.sideShift + 1 ≤ 16 := by
      have hge := resize_sideShift_ge (wrapRoot v) z
      have hws : (wrapRoot v).sideShift = v.sideShift + 1 := rfl
      rw [hws] at hge
      omega
    exact ih (wrap_At_zero v s0 h16w hv) h16 p hp hz
  | case2 v z hge =>
    intro hv h16 p hp hz
    rw [resize_stop _ _ hge] at hp ⊢
    exact hv p hp hz

/-- Growth never overshoots: the loop stops at the first sufficient shift. -/
theorem resize_sideShift_le_of (v : Voctree) (z : Nat) :
    ∀ b, z ≤ 1 <<< b → v.sideShift ≤ b → (resizeSideShift v z).sideShift ≤ b := by
  induction v, z using resizeSideShift.induct with
  | case1 v z hlt ih =>
    intro b hz hb
    rw [resize_step _ _ hlt]
    apply ih b hz
    show v.sideShift + 1 ≤ b
    have h1 : 1 <<< v.sideShift < 1 <<< b := lt_of_lt_of_le hlt hz
    have h2 : v.sideShift < b := by
      by_contra hc
      push_neg at hc
      have hmono : (1 : Nat) <<< b ≤ 1 <<< v.sideShift := by
        rw [Nat.one_shiftLeft, Nat.one_shiftLeft]
        exact Nat.pow_le_pow_right (by norm_num) hc
      omega
    omega
  | case2 v z hge =>
    intro b hz hb
    rw [resize_stop _ _ hge]
    exact hb

theorem foldl_congr_fun {α β : Type} (f g : β → α → β) (h : ∀ b a, f b a = g b a) :
    ∀ (l : List α) (b : β), l.foldl f b = l.foldl g b := by
  intro l
  induction l with
  | nil => intro b; rfl
  | cons a l ih =>
    intro b
    rw [List.foldl_cons, List.foldl_cons, h]
    exact ih _

/-- Per-voxel container writes are the root-node writes at the fixed shift. -/
theorem voctree_foldl_bridge (c : Nat) : ∀ (l : List Point) (w : Voctree),
    (l.foldl (fun a p => a.Set p c) w).vocelish =
      l.foldl (fun t p => t.Set ⟨p, w.sideShift⟩ c) w.vocelish ∧
    (l.foldl (fun a p => a.Set p c) w).sideShift = w.sideShift := by
  intro l
  induction l with
  | nil => intro w; exact ⟨rfl, rfl⟩
  | cons p ps ih =>
    intro w
    rw [List.foldl_cons, List.foldl_cons]
    have h := ih (w.Set p c)
    have hsh : (w.Set p c).sideShift = w.sideShift := rfl
    have hvc : (w.Set p c).vocelish = w.vocelish.Set ⟨p, w.sideShift⟩ c := rfl
    rw [hsh, hvc] at h
    exact h

/-- The one-pixel plane read by GetPlane on a 1x1 volume. -/
theorem getPlane_one (v : Voctree) (z : Nat) (hx : v.sizeX = 1) (hy : v.sizeY = 1) :
    (getPlane v z).1 = [(resizeSideShift v z).At ⟨u16 0, u16 0, u16 z⟩] := by
  have hx2 : (resizeSideShift v z).sizeX = 1 := by rw [(resize_sizes v z).1, hx]
  have hy2 : (resizeSideShift v z).sizeY = 1 := by rw [(resize_sizes v z).2, hy]
  simp only [getPlane, hx2, hy2, show List.range 1 = [0] from rfl, List.map_cons,
    List.map_nil, List.flatten, List.append_nil]
  rfl

/-- The allSame test of Go Vocel8.Set, phrased over the updated array. -/
theorem update_all_eq_iff (ps : Fin 8 → Nat) (k : Fin 8) (pixel : Nat) :
    (∀ i j : Fin 8, Function.update ps k pixel i = Function.update ps k pixel j) ↔
      (∀ i : Fin 8, (i : Nat) ≠ (k : Nat) → ps i = pixel) := by
  constructor
  · intro h i hi
    have hik : i ≠ k := fun hh => hi (congrArg Fin.val hh)
    have h2 := h i k
    rwa [Function.update_noteq hik, Function.update_same] at h2
  · intro h i j
    have hval : ∀ m : Fin 8, Function.update ps k pixel m = pixel := by
      intro m
      rcases eq_or_ne m k with rfl | hmk
      · exact Function.update_same _ _ _
      · rw [Function.update_noteq hmk]
        exact h m (fun hh => hmk (Fin.ext hh))
    rw [hval i, hval j]

theorem v0_eq : (newVoctree 1 1).Set ⟨0, 0, 0⟩ 7 = ⟨.v1 7, 1, 1, 0⟩ := by
  rw [newVoctree_one]
  show (⟨(Vocel.v1 0).Set ⟨⟨0, 0, 0⟩, 0⟩ 7, 1, 1, 0⟩ : Voctree) = _
  rw [Set_v1_def, if_pos (Or.inl rfl)]

/-- Writing the background value at an empty octant of the double-wrapped
spine changes nothing: the degenerate spine persists. -/
theorem T2_set_keep :
    (Vocel.vt (spineCs (.vt (spineCs (.v1 0))))).Set ⟨⟨0, 0, 2⟩, 2⟩ 0 =
      .vt (spineCs (.vt (spineCs (.v1 0)))) := by
  rw [Set_vt_clean _ _ _ _ (by norm_num) (by norm_num)]
  have hfin : octFin 2 ⟨0, 0, 2⟩ = (4 : Fin 8) := by decide
  rw [hfin]
  rw [show spineCs (.vt (spineCs (.v1 0))) (4 : Fin 8) = .v1 0 from rfl]
  rw [Set_v1_def, if_pos (Or.inr rfl)]
  rw [update_spine_self _ _ (by decide)]
  show coalesce (spineCs (.vt (spineCs (.v1 0)))) = _
  unfold coalesce
  rw [if_neg (by decide)]

/-- Writing a fresh value at the origin of the double-wrapped spine
coalesces the inner spine to a Vocel8: 16 nodes, one fewer than before. -/
theorem T2_set_split_nodes :
    ((Vocel.vt (spineCs (.vt (spineCs (.v1 0))))).Set ⟨⟨0, 0, 0⟩, 2⟩ 5).Nodes = 16 := by
  rw [Set_vt_clean _ _ _ _ (by norm_num) (by norm_num)]
  have hfin : octFin 2 ⟨0, 0, 0⟩ = (0 : Fin 8) := by decide
  rw [hfin]
  rw [show spineCs (.vt (spineCs (.v1 0))) (0 : Fin 8) = .vt (spineCs (.v1 0)) from rfl]
  rw [show resOf 2 (⟨0, 0, 0⟩ : Point) = (⟨0, 0, 0⟩ : Point) from rfl]
  rw [show (2 : Nat) - 1 = 1 from rfl]
  rw [Set_vt_clean _ _ _ _ (by norm_num) (by norm_num)]
  have hfin1 : octFin 1 ⟨0, 0, 0⟩ = (0 : Fin 8) := by decide
  rw [hfin1]
  rw [show spineCs (.v1 0) (0 : Fin 8) = .v1 0 from rfl]
  rw [Set_v1_def, if_pos (Or.inl rfl)]
  decide

/-- One axis of octIndex's residual: below the halved side for every uint8
shift in [1, 255] and every uint16 coordinate, in both mask regimes (exact
power mask below shift 17, wrapped-to-65535 mask above). -/
theorem residual_axis_lt (s a : Nat) (h1 : 1 ≤ s) (h255 : s ≤ 255) (ha : a < 65536) :
    a &&& ((((1 <<< ((s + 255) % 256)) % 65536) + 65535) % 65536) < 2 ^ (s - 1) := by
  have hsm : (s + 255) % 256 = s - 1 := by omega
  rw [hsm]
  rcases Nat.lt_or_ge s 17 with hlt | hge
  · have hside : (1 <<< (s - 1)) % 65536 = 2 ^ (s - 1) := by
      rw [Nat.one_shiftLeft]
      apply Nat.mod_eq_of_lt
      calc 2 ^ (s - 1) ≤ 2 ^ 15 := Nat.pow_le_pow_right (by norm_num) (by omega)
        _ < 65536 := by norm_num
    rw [hside]
    have hpow : 1 ≤ 2 ^ (s - 1) := Nat.one_le_two_pow
    have hpow2 : 2 ^ (s - 1) ≤ 32768 := by
      calc 2 ^ (s - 1) ≤ 2 ^ 15 := Nat.pow_le_pow_right (by norm_num) (by omega)
        _ = 32768 := by norm_num
    have hmask : (2 ^ (s - 1) + 65535) % 65536 = 2 ^ (s - 1) - 1 := by omega
    rw [hmask, Nat.and_pow_two_sub_one_eq_mod]
    exact Nat.mod_lt _ (by omega)
  · have hside : (1 <<< (s - 1)) % 65536 = 0 := by
      rw [Nat.one_shiftLeft]
      have hdvd : (65536 : Nat) ∣ 2 ^ (s - 1) := by
        rw [show (65536 : Nat) = 2 ^ 16 from by norm_num]
        exact pow_dvd_pow 2 (by omega)
      obtain ⟨c, hc⟩ := hdvd
      rw [hc]
      exact Nat.mul_mod_right _ _
    rw [hside]
    rw [show ((0 + 65535) % 65536 : Nat) = 2 ^ 16 - 1 from by norm_num]
    rw [Nat.and_pow_two_sub_one_eq_mod]
    calc a % 2 ^ 16 < 2 ^ 16 := Nat.mod_lt _ (by norm_num)
      _ ≤ 2 ^ (s - 1) := Nat.pow_le_pow_right (by norm_num) (by omega)

/-!  The claim theorems. -/

/-- C1 (amended): the per-voxel operations Voctree.Set and Voctree.At never
grow depth -- they delegate to the root node at the current shift unchanged,
even when z exceeds the capacity 2^shift.  Only the plane operations
setPlane (on a matching buffer) and getPlane grow depth first, through
resizeSideShift's repeated root wrapping, so that after the call
z ≤ 2^shift. -/
theorem C1_amended (v : Voctree) (p : Point) (c z : Nat) (pix : List Nat)
    (hlen : pix.length = v.sizeX * v.sizeY) :
    (v.Set p c).sideShift = v.sideShift ∧
    (v.Set p c).vocelish = v.vocelish.Set ⟨p, v.sideShift⟩ c ∧
    v.At p = v.vocelish.At ⟨p, v.sideShift⟩ ∧
    z ≤ 1 <<< (setPlane v z pix).1.sideShift ∧
    z ≤ 1 <<< (getPlane v z).2.sideShift ∧
    (setPlane v z pix).1.sideShift = (resizeSideShift v z).sideShift ∧
    (getPlane v z).2 = resizeSideShift v z := by
  have hst := setPlane_state v z pix (by simp [hlen])
  refine ⟨rfl, rfl, rfl, ?_, ?_, hst.2.1, getPlane_state v z⟩
  · rw [hst.2.1]
    exact resize_le v z
  · rw [getPlane_state]
    exact resize_le v z

/-- C1 witness: the shift-0 one-voxel volume, a write at z = 5, and a
matching one-pixel plane buffer. -/
theorem C1_witness :
    ([3] : List Nat).length = (newVoctree 1 1).sizeX * (newVoctree 1 1).sizeY ∧
    (((newVoctree 1 1).Set ⟨0, 0, 5⟩ 7).sideShift = (newVoctree 1 1).sideShift ∧
     ((newVoctree 1 1).Set ⟨0, 0, 5⟩ 7).vocelish =
       (newVoctree 1 1).vocelish.Set ⟨⟨0, 0, 5⟩, (newVoctree 1 1).sideShift⟩ 7 ∧
     (newVoctree 1 1).At ⟨0, 0, 5⟩ =
       (newVoctree 1 1).vocelish.At ⟨⟨0, 0, 5⟩, (newVoctree 1 1).sideShift⟩ ∧
     5 ≤ 1 <<< (setPlane (newVoctree 1 1) 5 [3]).1.sideShift ∧
     5 ≤ 1 <<< (getPlane (newVoctree 1 1) 5).2.sideShift ∧
     (setPlane (newVoctree 1 1) 5 [3]).1.sideShift =
       (resizeSideShift (newVoctree 1 1) 5).sideShift ∧
     (getPlane (newVoctree 1 1) 5).2 = resizeSideShift (newVoctree 1 1) 5) :=
  ⟨rfl, C1_amended (newVoctree 1 1) ⟨0, 0, 5⟩ 7 5 [3] rfl⟩

/-- C1 counterexample: on the shift-0 volume a per-voxel write at z = 5
(which exceeds the capacity 2^0 = 1) performs no depth growth: the shift
stays 0 and afterwards 2^shift < 5 still. -/
theorem C1_counterexample :
    1 <<< (newVoctree 1 1).sideShift < 5 ∧
    ((newVoctree 1 1).Set ⟨0, 0, 5⟩ 7).sideShift = 0 ∧
    ¬ 5 ≤ 1 <<< ((newVoctree 1 1).Set ⟨0, 0, 5⟩ 7).sideShift := by
  rw [show ((newVoctree 1 1).Set ⟨0, 0, 5⟩ 7).sideShift =
    (newVoctree 1 1).sideShift from rfl, newVoctree_one]
  exact ⟨by decide, by decide, by decide⟩

/-- C2 (confirmed): setPlane with a buffer whose length differs from
sizeX*sizeY reports the shape-mismatch error and leaves the volume
completely unchanged: same state, root, shift, node count, and reads. -/
theorem C2 (v : Voctree) (z : Nat) (pix : List Nat)
    (hlen : pix.length ≠ v.sizeX * v.sizeY) :
    (setPlane v z pix).2 = some () ∧
    (setPlane v z pix).1 = v ∧
    (setPlane v z pix).1.vocelish = v.vocelish ∧
    (setPlane v z pix).1.sideShift = v.sideShift ∧
    (setPlane v z pix).1.Nodes = v.Nodes ∧
    ∀ p, (setPlane v z pix).1.At p = v.At p := by
  unfold setPlane
  rw [if_pos hlen]
  exact ⟨rfl, rfl, rfl, rfl, rfl, fun p => rfl⟩

/-- C2 witness: the 1x1 volume with an empty plane buffer. -/
theorem C2_witness :
    ([] : List Nat).length ≠ (newVoctree 1 1).sizeX * (newVoctree 1 1).sizeY ∧
    ((setPlane (newVoctree 1 1) 0 []).2 = some () ∧
     (setPlane (newVoctree 1 1) 0 []).1 = newVoctree 1 1 ∧
     (setPlane (newVoctree 1 1) 0 []).1.vocelish = (newVoctree 1 1).vocelish ∧
     (setPlane (newVoctree 1 1) 0 []).1.sideShift = (newVoctree 1 1).sideShift ∧
     (setPlane (newVoctree 1 1) 0 []).1.Nodes = (newVoctree 1 1).Nodes ∧
     ∀ p, (setPlane (newVoctree 1 1) 0 []).1.At p = (newVoctree 1 1).At p) :=
  ⟨by decide, C2 (newVoctree 1 1) 0 [] (by decide)⟩

/-- C3 (amended): every state reachable by construction and per-voxel
writes, at uint16 depths (shift ≤ 16), satisfies the full compactness
invariant; states reached with the plane operations still satisfy the
shift-0 and no-all-equal-Vocel8 clauses, but depth growth wraps the old
root into a VocelTree whose other seven children are zero Vocel1 leaves,
which can make all eight children Vocel1 simultaneously. -/
theorem C3_amended (v : Voctree) (h16 : v.sideShift ≤ 16) :
    (ReachableW v → Compact v.sideShift v.vocelish) ∧
    (Reachable v → WfShape v.sideShift v.vocelish ∧ NoEq8 v.vocelish) :=
  ⟨fun hr => ReachableW_compact v hr h16, fun hr => Reachable_sound v hr h16⟩

/-- C3 witness: a literal shift-1 volume. -/
theorem C3_witness :
    (⟨.v1 3, 2, 2, 1⟩ : Voctree).sideShift ≤ 16 ∧
    ((ReachableW ⟨.v1 3, 2, 2, 1⟩ →
        Compact (⟨.v1 3, 2, 2, 1⟩ : Voctree).sideShift
          (⟨.v1 3, 2, 2, 1⟩ : Voctree).vocelish) ∧
     (Reachable ⟨.v1 3, 2, 2, 1⟩ →
        WfShape (⟨.v1 3, 2, 2, 1⟩ : Voctree).sideShift
            (⟨.v1 3, 2, 2, 1⟩ : Voctree).vocelish ∧
          NoEq8 (⟨.v1 3, 2, 2, 1⟩ : Voctree).vocelish)) :=
  ⟨by decide, C3_amended ⟨.v1 3, 2, 2, 1⟩ (by decide)⟩

/-- C3 counterexample: the state reached by getPlane at z = 2 from the 1x1
volume has a VocelTree root whose eight children are all Vocel1 -- the
"never simultaneously all UniformLeaf" clause fails on a reachable state. -/
theorem C3_counterexample :
    Reachable (getPlane (newVoctree 1 1) 2).2 ∧
    (getPlane (newVoctree 1 1) 2).2.vocelish = .vt (spineCs (.v1 0)) ∧
    (∀ i : Fin 8, (spineCs (.v1 0) i).isV1 = true) ∧
    ¬ DeepND (getPlane (newVoctree 1 1) 2).2.vocelish := by
  have hst : (getPlane (newVoctree 1 1) 2).2 = ⟨.vt (spineCs (.v1 0)), 1, 1, 1⟩ := by
    rw [getPlane_state, newVoctree_one]
    exact resize2_eq
  refine ⟨Reachable.planeGet _ 2 (Reachable.new 1 1), ?_, by decide, ?_⟩
  · rw [hst]
  · rw [hst]
    intro hd
    obtain ⟨⟨i, hi⟩, -⟩ := hd
    exact hi ((by decide : ∀ j : Fin 8, (spineCs (.v1 0) j).isV1 = true) i)

/-- C4 (amended): on every reachable volume at a uint16 depth (shift ≤ 16),
folding writes of one value c over any list of in-range coordinates that
covers every voxel of the volume collapses the tree to a single node:
node_count() = 1, regardless of the order of the list and of how the tree
had previously been split. -/
theorem C4_amended (v : Voctree) (c : Nat) (ws : List Point)
    (hr : Reachable v) (h16 : v.sideShift ≤ 16)
    (hws : ∀ p ∈ ws, inCube v.sideShift p)
    (hcov : ∀ q, inCube v.sideShift q → q ∈ ws) :
    (ws.foldl (fun a p => a.Set p c) v).Nodes = 1 := by
  obtain ⟨hwf, hne⟩ := Reachable_sound v hr h16
  have hb := voctree_foldl_bridge c ws v
  show (ws.foldl (fun a p => a.Set p c) v).vocelish.Nodes = 1
  rw [hb.1]
  rw [writes_cover_uniform ws v.vocelish v.sideShift c (fun _ => False) h16 hwf hne
    (noDead_false v.vocelish v.sideShift) (fun q hq hF => False.elim hF) hws
    (fun q hq => Or.inr (hcov q hq))]
  rfl

/-- C4 witness: the one-voxel volume, covered by the single write list
[(0,0,0)] with value 5. -/
theorem C4_witness :
    Reachable (newVoctree 1 1) ∧
    (newVoctree 1 1).sideShift ≤ 16 ∧
    (∀ p ∈ [(⟨0, 0, 0⟩ : Point)], inCube (newVoctree 1 1).sideShift p) ∧
    (∀ q, inCube (newVoctree 1 1).sideShift q → q ∈ [(⟨0, 0, 0⟩ : Point)]) ∧
    ([(⟨0, 0, 0⟩ : Point)].foldl (fun a p => a.Set p 5) (newVoctree 1 1)).Nodes = 1 := by
  have h16 : (newVoctree 1 1).sideShift ≤ 16 := by rw [newVoctree_one]; decide
  have hws : ∀ p ∈ [(⟨0, 0, 0⟩ : Point)], inCube (newVoctree 1 1).sideShift p := by
    intro p hp
    rw [List.mem_singleton] at hp
    subst hp
    rw [newVoctree_one]
    exact ⟨by decide, by decide, by decide⟩
  have hcov : ∀ q, inCube (newVoctree 1 1).sideShift q → q ∈ [(⟨0, 0, 0⟩ : Point)] := by
    intro q hq
    rw [newVoctree_one] at hq
    rw [List.mem_singleton]
    exact (inCube_zero q).mp hq
  exact ⟨Reachable.new 1 1, h16, hws, hcov,
    C4_amended (newVoctree 1 1) 5 [⟨0, 0, 0⟩] (Reachable.new 1 1) h16 hws hcov⟩

/-- C4 counterexample: the reachable 17-node degenerate state after
getPlane at z = 3 reads 0 everywhere; the single write of 0 at (0,0,2) is
a write sequence whose net effect leaves every voxel 0, yet the node count
after it is 17, not 1. -/
theorem C4_counterexample :
    Reachable (getPlane (newVoctree 1 1) 3).2 ∧
    (getPlane (newVoctree 1 1) 3).2.Nodes = 17 ∧
    ((getPlane (newVoctree 1 1) 3).2.Set ⟨0, 0, 2⟩ 0).Nodes = 17 ∧
    (∀ q : Point, ((getPlane (newVoctree 1 1) 3).2.Set ⟨0, 0, 2⟩ 0).At q = 0) := by
  have hst : (getPlane (newVoctree 1 1) 3).2 =
      ⟨.vt (spineCs (.vt (spineCs (.v1 0)))), 1, 1, 2⟩ := by
    rw [getPlane_state, newVoctree_one]
    exact resize3_eq
  refine ⟨Reachable.planeGet _ 3 (Reachable.new 1 1), ?_, ?_, ?_⟩
  · rw [hst]
    decide
  · rw [hst]
    show ((Vocel.vt (spineCs (.vt (spineCs (.v1 0))))).Set ⟨⟨0, 0, 2⟩, 2⟩ 0).Nodes = 17
    rw [T2_set_keep]
    decide
  · intro q
    rw [hst]
    show ((Vocel.vt (spineCs (.vt (spineCs (.v1 0))))).Set ⟨⟨0, 0, 2⟩, 2⟩ 0).At ⟨q, 2⟩ = 0
    rw [T2_set_keep]
    exact spine_At_zero (.vt (spineCs (.v1 0)))
      (spine_At_zero (.v1 0) (fun _ => rfl)) _

/-- C5 (amended): on a volume whose tree is a single Vocel1 (node count 1)
with side length at least 2 and a uint16 depth, writing a different value
at one in-range voxel p strictly increases node_count(), and every other
in-range voxel reads the same value as before the write. -/
theorem C5_amended (v : Voctree) (a c : Nat) (p : Point)
    (hroot : v.vocelish = .v1 a) (hs1 : 1 ≤ v.sideShift) (h16 : v.sideShift ≤ 16)
    (hc : c ≠ a) (hp : inCube v.sideShift p) :
    v.Nodes < (v.Set p c).Nodes ∧
    ∀ q, inCube v.sideShift q → q ≠ p → (v.Set p c).At q = v.At q := by
  obtain ⟨n, hn⟩ : ∃ n, v.sideShift = n + 1 := ⟨v.sideShift - 1, by omega⟩
  constructor
  · have h1 : v.Nodes = 1 := by
      show v.vocelish.Nodes = 1
      rw [hroot]
      rfl
    have h2 : (v.Set p c).Nodes = ((Vocel.v1 a).Set ⟨p, v.sideShift⟩ c).Nodes := by
      show (v.vocelish.Set ⟨p, v.sideShift⟩ c).Nodes = _
      rw [hroot]
    have hsplit := splitV1_compact n (by omega) a c p hc
    have h3 : 1 < ((Vocel.v1 a).Set ⟨p, n + 1⟩ c).Nodes := one_lt_Nodes _ hsplit.2
    rw [h1, h2, hn]
    exact h3
  · intro q hq hqp
    have hf := Set_At_frame (Vocel.v1 a) ⟨p, v.sideShift⟩ c h16 trivial hp q hq
    show ((v.vocelish.Set ⟨p, v.sideShift⟩ c).At ⟨q, v.sideShift⟩) =
      v.vocelish.At ⟨q, v.sideShift⟩
    rw [hroot, hf, if_neg hqp]

/-- C5 witness: a literal shift-1 uniform volume, writing 5 at the
origin. -/
theorem C5_witness :
    (⟨.v1 0, 2, 2, 1⟩ : Voctree).vocelish = .v1 0 ∧
    1 ≤ (⟨.v1 0, 2, 2, 1⟩ : Voctree).sideShift ∧
    (⟨.v1 0, 2, 2, 1⟩ : Voctree).sideShift ≤ 16 ∧
    (5 : Nat) ≠ 0 ∧
    inCube (⟨.v1 0, 2, 2, 1⟩ : Voctree).sideShift ⟨0, 0, 0⟩ ∧
    ((⟨.v1 0, 2, 2, 1⟩ : Voctree).Nodes <
        ((⟨.v1 0, 2, 2, 1⟩ : Voctree).Set ⟨0, 0, 0⟩ 5).Nodes ∧
      ∀ q, inCube (⟨.v1 0, 2, 2, 1⟩ : Voctree).sideShift q → q ≠ ⟨0, 0, 0⟩ →
        ((⟨.v1 0, 2, 2, 1⟩ : Voctree).Set ⟨0, 0, 0⟩ 5).At q =
          (⟨.v1 0, 2, 2, 1⟩ : Voctree).At q) :=
  ⟨rfl, by decide, by decide, by decide, ⟨by decide, by decide, by decide⟩,
    C5_amended ⟨.v1 0, 2, 2, 1⟩ 0 5 ⟨0, 0, 0⟩ rfl (by decide) (by decide) (by decide)
      ⟨by decide, by decide, by decide⟩⟩

/-- C5 counterexample: the reachable degenerate state after getPlane at
z = 3 is entirely uniform (every voxel reads 0) with 17 nodes, yet writing
the different value 5 at the single voxel (0,0,0) yields 16 nodes -- the
count decreases; and on the one-voxel volume a write of a different value
keeps the count at 1 -- no increase. -/
theorem C5_counterexample :
    (∀ q : Point, (getPlane (newVoctree 1 1) 3).2.At q = 0) ∧
    (getPlane (newVoctree 1 1) 3).2.Nodes = 17 ∧
    ((getPlane (newVoctree 1 1) 3).2.Set ⟨0, 0, 0⟩ 5).Nodes = 16 ∧
    (newVoctree 1 1).Nodes = 1 ∧
    ((newVoctree 1 1).Set ⟨0, 0, 0⟩ 5).Nodes = 1 := by
  have hst : (getPlane (newVoctree 1 1) 3).2 =
      ⟨.vt (spineCs (.vt (spineCs (.v1 0)))), 1, 1, 2⟩ := by
    rw [getPlane_state, newVoctree_one]
    exact resize3_eq
  refine ⟨?_, ?_, ?_, ?_, ?_⟩
  · intro q
    rw [hst]
    exact spine_At_zero (.vt (spineCs (.v1 0)))
      (spine_At_zero (.v1 0) (fun _ => rfl)) _
  · rw [hst]
    decide
  · rw [hst]
    show ((Vocel.vt (spineCs (.vt (spineCs (.v1 0))))).Set ⟨⟨0, 0, 0⟩, 2⟩ 5).Nodes = 16
    exact T2_set_split_nodes
  · rw [newVoctree_one]
    decide
  · rw [newVoctree_one]
    show ((Vocel.v1 0).Set ⟨⟨0, 0, 0⟩, 0⟩ 5).Nodes = 1
    rw [Set_v1_def, if_pos (Or.inl rfl)]
    rfl

/-- C6 (confirmed): writing the same value twice at the same coordinate
yields exactly the state of writing it once: node_count() and every read
agree (on every volume, reachable or not). -/
theorem C6 (v : Voctree) (p : Point) (c : Nat) :
    ((v.Set p c).Set p c).Nodes = (v.Set p c).Nodes ∧
    ∀ q, ((v.Set p c).Set p c).At q = (v.Set p c).At q := by
  have h : (v.Set p c).Set p c = v.Set p c := by
    show (⟨(v.vocelish.Set ⟨p, v.sideShift⟩ c).Set ⟨p, v.sideShift⟩ c, v.sizeX,
      v.sizeY, v.sideShift⟩ : Voctree) = v.Set p c
    rw [Set_idem]
    rfl
  rw [h]
  exact ⟨rfl, fun q => rfl⟩

/-- C7 (confirmed): Vocel8.Set on an entry that differs from the incoming
pixel: at shift 1, if storing it would make all eight entries equal the
node coalesces to a Vocel1 of the pixel, otherwise the entry is stored in
place and the node stays a Vocel8; at any other shift the node splits into
a VocelTree of Vocel1 leaves seeded from its eight entries and delegates
the write, returning that result. -/
theorem C7 (ps : Fin 8 → Nat) (cube : Cube) (pixel : Nat)
    (hne : ¬ ps ⟨(octIndex cube).1, octIndex_fst_lt cube⟩ = pixel) :
    (cube.sideShift = 1 →
      (∀ i j : Fin 8,
          Function.update ps ⟨(octIndex cube).1, octIndex_fst_lt cube⟩ pixel i =
          Function.update ps ⟨(octIndex cube).1, octIndex_fst_lt cube⟩ pixel j) →
      (Vocel.v8 ps).Set cube pixel = .v1 pixel) ∧
    (cube.sideShift = 1 →
      ¬ (∀ i j : Fin 8,
          Function.update ps ⟨(octIndex cube).1, octIndex_fst_lt cube⟩ pixel i =
          Function.update ps ⟨(octIndex cube).1, octIndex_fst_lt cube⟩ pixel j) →
      (Vocel.v8 ps).Set cube pixel =
        .v8 (Function.update ps ⟨(octIndex cube).1, octIndex_fst_lt cube⟩ pixel)) ∧
    (¬ cube.sideShift = 1 →
      (Vocel.v8 ps).Set cube pixel = (Vocel.vt fun i => .v1 (ps i)).Set cube pixel) := by
  have h := octIndex_fst_lt cube
  refine ⟨?_, ?_, ?_⟩
  · intro hs1 hall
    rw [Vocel.Set.eq_2, dif_pos h, if_neg hne, if_pos hs1,
      if_pos ((allSameExcept_iff _ _ _).mpr ((update_all_eq_iff _ _ _).mp hall))]
  · intro hs1 hnall
    rw [Vocel.Set.eq_2, dif_pos h, if_neg hne, if_pos hs1,
      if_neg (fun htrue => hnall ((update_all_eq_iff _ _ _).mpr
        ((allSameExcept_iff _ _ _).mp htrue)))]
  · intro hs1
    rw [Vocel.Set.eq_2, dif_pos h, if_neg hne, if_neg hs1]

/-- C7 witness: the all-zero Vocel8 at a shift-1 cube, written with 5. -/
theorem C7_witness :
    (¬ (fun _ : Fin 8 => 0)
        ⟨(octIndex ⟨⟨0, 0, 0⟩, 1⟩).1, octIndex_fst_lt ⟨⟨0, 0, 0⟩, 1⟩⟩ = 5) ∧
    (((⟨⟨0, 0, 0⟩, 1⟩ : Cube).sideShift = 1 →
      (∀ i j : Fin 8,
          Function.update (fun _ : Fin 8 => 0)
            ⟨(octIndex ⟨⟨0, 0, 0⟩, 1⟩).1, octIndex_fst_lt ⟨⟨0, 0, 0⟩, 1⟩⟩ 5 i =
          Function.update (fun _ : Fin 8 => 0)
            ⟨(octIndex ⟨⟨0, 0, 0⟩, 1⟩).1, octIndex_fst_lt ⟨⟨0, 0, 0⟩, 1⟩⟩ 5 j) →
      (Vocel.v8 (fun _ : Fin 8 => 0)).Set ⟨⟨0, 0, 0⟩, 1⟩ 5 = .v1 5) ∧
    ((⟨⟨0, 0, 0⟩, 1⟩ : Cube).sideShift = 1 →
      ¬ (∀ i j : Fin 8,
          Function.update (fun _ : Fin 8 => 0)
            ⟨(octIndex ⟨⟨0, 0, 0⟩, 1⟩).1, octIndex_fst_lt ⟨⟨0, 0, 0⟩, 1⟩⟩ 5 i =
          Function.update (fun _ : Fin 8 => 0)
            ⟨(octIndex ⟨⟨0, 0, 0⟩, 1⟩).1, octIndex_fst_lt ⟨⟨0, 0, 0⟩, 1⟩⟩ 5 j) →
      (Vocel.v8 (fun _ : Fin 8 => 0)).Set ⟨⟨0, 0, 0⟩, 1⟩ 5 =
        .v8 (Function.update (fun _ : Fin 8 => 0)
          ⟨(octIndex ⟨⟨0, 0, 0⟩, 1⟩).1, octIndex_fst_lt ⟨⟨0, 0, 0⟩, 1⟩⟩ 5)) ∧
    (¬ (⟨⟨0, 0, 0⟩, 1⟩ : Cube).sideShift = 1 →
      (Vocel.v8 (fun _ : Fin 8 => 0)).Set ⟨⟨0, 0, 0⟩, 1⟩ 5 =
        (Vocel.vt fun i => .v1 ((fun _ : Fin 8 => 0) i)).Set ⟨⟨0, 0, 0⟩, 1⟩ 5)) :=
  ⟨by decide, C7 (fun _ => 0) ⟨⟨0, 0, 0⟩, 1⟩ 5 (by decide)⟩

/-- C8 (confirmed refinement): Vocel1.Set at a nonzero shift with a
different pixel equals the spec's splitting recipe uniformSplitSpec --
materialize an internal node of eight uniform children carrying the
original value and delegate the write to it.  (The code's actual split
goes through a Vocel8, but the results coincide.) -/
theorem C8 (v : Nat) (cube : Cube) (pixel : Nat)
    (hs : cube.sideShift ≠ 0) (hpv : pixel ≠ v) :
    (Vocel.v1 v).Set cube pixel = uniformSplitSpec v cube pixel := by
  obtain ⟨p, s⟩ := cube
  have hs0 : s ≠ 0 := hs
  rw [Set_v1_def]
  rw [if_neg (fun hor => Or.elim hor hs0 hpv)]
  by_cases hs1 : s = 1
  · subst hs1
    rw [Set_v8_clean _ _ _ _ (by norm_num) (by norm_num)]
    rw [if_neg (show ¬ (fun _ : Fin 8 => v) (octFin 1 p) = pixel from
      fun hh => hpv hh.symm)]
    rw [if_pos rfl]
    rw [if_neg (show ¬ allSameExcept (fun _ : Fin 8 => v) (octOf 1 p) pixel = true from ?_)]
    · show _ = (Vocel.vt fun _ => .v1 v).Set ⟨p, 1⟩ pixel
      rw [Set_vt_clean _ _ _ _ (by norm_num) (by norm_num)]
      rw [Set_v1_def, if_pos (Or.inl rfl)]
      unfold coalesce
      rw [if_pos ?hall, if_neg ?hsame]
      · congr 1
        funext i
        rcases eq_or_ne i (octFin 1 p) with rfl | hi
        · rw [Function.update_same, Function.update_same]
          rfl
        · rw [Function.update_noteq hi, Function.update_noteq hi]
          rfl
      case hall =>
        rw [allV1_iff]
        intro i
        rcases eq_or_ne i (octFin 1 p) with rfl | hi
        · rw [Function.update_same]
          rfl
        · rw [Function.update_noteq hi]
          rfl
      case hsame =>
        intro htrue
        have hsame2 := (allSamePix_iff _).mp htrue
        rcases eq_or_ne (octFin 1 p) 0 with h0 | h0
        · have h2 := hsame2 (otherIdx 0)
          rw [h0] at h2
          rw [Function.update_noteq (otherIdx_ne 0), Function.update_same] at h2
          have h3 : v = pixel := h2
          exact hpv h3.symm
        · have h2 := hsame2 (octFin 1 p)
          rw [Function.update_same, Function.update_noteq (Ne.symm h0)] at h2
          have h3 : pixel = v := h2
          exact hpv h3
    · intro htrue
      have h2 := (allSameExcept_iff _ _ _).mp htrue (otherIdx (octFin 1 p))
        (fun hh => otherIdx_ne (octFin 1 p) (Fin.ext hh))
      exact hpv (h2.symm ▸ rfl)
  · have hfl : (octIndex ⟨p, s⟩).1 < 8 := octIndex_fst_lt ⟨p, s⟩
    rw [Vocel.Set.eq_2, dif_pos hfl]
    rw [if_neg (show ¬ (fun _ : Fin 8 => v) ⟨(octIndex ⟨p, s⟩).1, hfl⟩ = pixel from
      fun hh => hpv hh.symm)]
    rw [if_neg hs1]
    rfl

/-- C8 witness: splitting the uniform 0 leaf at a shift-1 cube with
pixel 5. -/
theorem C8_witness :
    (⟨⟨0, 0, 0⟩, 1⟩ : Cube).sideShift ≠ 0 ∧ (5 : Nat) ≠ 0 ∧
    (Vocel.v1 0).Set ⟨⟨0, 0, 0⟩, 1⟩ 5 = uniformSplitSpec 0 ⟨⟨0, 0, 0⟩, 1⟩ 5 :=
  ⟨by decide, by decide, C8 0 ⟨⟨0, 0, 0⟩, 1⟩ 5 (by decide) (by decide)⟩

/-- C9 (confirmed): for every cube descriptor with a uint8 shift in
[1, 255] and uint16 coordinates, octIndex returns an index in [0, 8) (so
the guarded child-array accesses of At and Set never take their dead
branch) and a residual descriptor with the shift decremented and every
axis strictly below 2^(shift-1), including coordinates at or beyond the
side length. -/
theorem C9 (cube : Cube) (h1 : 1 ≤ cube.sideShift) (h255 : cube.sideShift ≤ 255)
    (hx : cube.point.x < 65536) (hy : cube.point.y < 65536)
    (hz : cube.point.z < 65536) :
    (octIndex cube).1 < 8 ∧
    (octIndex cube).2.sideShift = cube.sideShift - 1 ∧
    (octIndex cube).2.point.x < 2 ^ (cube.sideShift - 1) ∧
    (octIndex cube).2.point.y < 2 ^ (cube.sideShift - 1) ∧
    (octIndex cube).2.point.z < 2 ^ (cube.sideShift - 1) := by
  refine ⟨octIndex_fst_lt cube, ?_, ?_, ?_, ?_⟩
  · rw [octIndex_snd_sideShift]
    omega
  · exact residual_axis_lt cube.sideShift cube.point.x h1 h255 hx
  · exact residual_axis_lt cube.sideShift cube.point.y h1 h255 hy
  · exact residual_axis_lt cube.sideShift cube.point.z h1 h255 hz

/-- C9 witness: an out-of-range coordinate (65535, 40000, 3) at shift 5. -/
theorem C9_witness :
    1 ≤ (⟨⟨65535, 40000, 3⟩, 5⟩ : Cube).sideShift ∧
    (⟨⟨65535, 40000, 3⟩, 5⟩ : Cube).sideShift ≤ 255 ∧
    (⟨⟨65535, 40000, 3⟩, 5⟩ : Cube).point.x < 65536 ∧
    (⟨⟨65535, 40000, 3⟩, 5⟩ : Cube).point.y < 65536 ∧
    (⟨⟨65535, 40000, 3⟩, 5⟩ : Cube).point.z < 65536 ∧
    ((octIndex ⟨⟨65535, 40000, 3⟩, 5⟩).1 < 8 ∧
     (octIndex ⟨⟨65535, 40000, 3⟩, 5⟩).2.sideShift =
       (⟨⟨65535, 40000, 3⟩, 5⟩ : Cube).sideShift - 1 ∧
     (octIndex ⟨⟨65535, 40000, 3⟩, 5⟩).2.point.x <
       2 ^ ((⟨⟨65535, 40000, 3⟩, 5⟩ : Cube).sideShift - 1) ∧
     (octIndex ⟨⟨65535, 40000, 3⟩, 5⟩).2.point.y <
       2 ^ ((⟨⟨65535, 40000, 3⟩, 5⟩ : Cube).sideShift - 1) ∧
     (octIndex ⟨⟨65535, 40000, 3⟩, 5⟩).2.point.z <
       2 ^ ((⟨⟨65535, 40000, 3⟩, 5⟩ : Cube).sideShift - 1)) :=
  ⟨by decide, by decide, by decide, by decide, by decide,
    C9 ⟨⟨65535, 40000, 3⟩, 5⟩ (by decide) (by decide) (by decide) (by decide)
      (by decide)⟩

/-- C10 (amended): at z equal to the full side length 2^shift neither
plane operation grows depth (the loop runs only while 2^shift < z).  For
shifts up to 15 -- where 2^shift still fits in 16 bits -- the addressing
maps z = 2^shift to the same octant decomposition as z = 2^(shift-1), so
getPlane at 2^shift reads, and setPlane at 2^shift writes, the plane at
z = 2^(shift-1).  At shift 16 the uint16 conversion truncates z = 2^16
to 0 instead. -/
theorem C10_amended (v : Voctree) (h1 : 1 ≤ v.sideShift) :
    resizeSideShift v (2 ^ v.sideShift) = v ∧
    (v.sideShift ≤ 15 →
      (∀ x y : Nat,
        octIndex ⟨⟨x, y, 2 ^ v.sideShift⟩, v.sideShift⟩ =
          octIndex ⟨⟨x, y, 2 ^ (v.sideShift - 1)⟩, v.sideShift⟩) ∧
      (getPlane v (2 ^ v.sideShift)).1 = (getPlane v (2 ^ (v.sideShift - 1))).1 ∧
      (∀ pix : List Nat, (setPlane v (2 ^ v.sideShift) pix).1 =
        (setPlane v (2 ^ (v.sideShift - 1)) pix).1)) ∧
    (v.sideShift = 16 → u16 (2 ^ v.sideShift) = 0) := by
  have hstop1 : resizeSideShift v (2 ^ v.sideShift) = v :=
    resize_stop _ _ (by rw [Nat.one_shiftLeft]; exact lt_irrefl _)
  have hstop2 : resizeSideShift v (2 ^ (v.sideShift - 1)) = v :=
    resize_stop _ _ (by
      rw [Nat.one_shiftLeft]
      exact not_lt.mpr (Nat.pow_le_pow_right (by norm_num) (by omega)))
  refine ⟨hstop1, ?_, ?_⟩
  · intro h15
    have hu1 : u16 (2 ^ v.sideShift) = 2 ^ v.sideShift := by
      apply Nat.mod_eq_of_lt
      calc 2 ^ v.sideShift ≤ 2 ^ 15 := Nat.pow_le_pow_right (by norm_num) h15
        _ < 65536 := by norm_num
    have hu2 : u16 (2 ^ (v.sideShift - 1)) = 2 ^ (v.sideShift - 1) := by
      apply Nat.mod_eq_of_lt
      calc 2 ^ (v.sideShift - 1) ≤ 2 ^ 15 := Nat.pow_le_pow_right (by norm_num) (by omega)
        _ < 65536 := by norm_num
    have hzo : (2 : Nat) ^ (v.sideShift - 1) ≤ 2 ^ v.sideShift :=
      Nat.pow_le_pow_right (by norm_num) (by omega)
    have hmod1 : (2 : Nat) ^ v.sideShift % 2 ^ (v.sideShift - 1) = 0 := by
      obtain ⟨c2, hc2⟩ : (2 : Nat) ^ (v.sideShift - 1) ∣ 2 ^ v.sideShift :=
        pow_dvd_pow 2 (by omega)
      rw [hc2]
      exact Nat.mul_mod_right _ _
    have hoct : ∀ x y : Nat,
        octIndex ⟨⟨x, y, 2 ^ v.sideShift⟩, v.sideShift⟩ =
          octIndex ⟨⟨x, y, 2 ^ (v.sideShift - 1)⟩, v.sideShift⟩ := by
      intro x y
      rw [octIndex_eval _ _ h1 (by omega), octIndex_eval _ _ h1 (by omega)]
      have hoctOf : octOf v.sideShift ⟨x, y, 2 ^ v.sideShift⟩ =
          octOf v.sideShift ⟨x, y, 2 ^ (v.sideShift - 1)⟩ := by
        unfold octOf
        rw [show (⟨x, y, 2 ^ v.sideShift⟩ : Point).z = 2 ^ v.sideShift from rfl,
          show (⟨x, y, 2 ^ (v.sideShift - 1)⟩ : Point).z = 2 ^ (v.sideShift - 1) from rfl,
          if_pos hzo, if_pos (le_refl _)]
      have hres : resOf v.sideShift ⟨x, y, 2 ^ v.sideShift⟩ =
          resOf v.sideShift ⟨x, y, 2 ^ (v.sideShift - 1)⟩ := by
        show (⟨x % 2 ^ (v.sideShift - 1), y % 2 ^ (v.sideShift - 1),
            2 ^ v.sideShift % 2 ^ (v.sideShift - 1)⟩ : Point) =
          ⟨x % 2 ^ (v.sideShift - 1), y % 2 ^ (v.sideShift - 1),
            2 ^ (v.sideShift - 1) % 2 ^ (v.sideShift - 1)⟩
        rw [hmod1, Nat.mod_self]
      rw [Prod.ext_iff]
      exact ⟨hoctOf, by rw [hres]⟩
    refine ⟨hoct, ?_, ?_⟩
    · simp only [getPlane]
      rw [hstop1, hstop2]
      congr 1
      apply List.map_congr_left
      intro yy hyy
      apply List.map_congr_left
      intro xx hxx
      apply At_cube_congr
      rw [show u16 (2 ^ v.sideShift) = 2 ^ v.sideShift from hu1,
        show u16 (2 ^ (v.sideShift - 1)) = 2 ^ (v.sideShift - 1) from hu2]
      exact hoct (u16 xx) (u16 yy)
    · intro pix
      by_cases hlen : pix.length ≠ v.sizeX * v.sizeY
      · simp only [setPlane]
        rw [if_pos hlen, if_pos hlen]
      · simp only [setPlane]
        rw [if_neg hlen, if_neg hlen]
        show Prod.fst _ = Prod.fst _
        refine congrArg Prod.fst ?_
        refine congrArg (fun w => (w, (none : Option Unit))) ?_
        rw [hstop1, hstop2]
        refine foldl_congr_fun _ _ ?_ _ _
        intro acc yy
        refine foldl_congr_fun _ _ ?_ _ _
        intro acc2 xx
        show Voctree.mk (acc2.vocelish.Set
            (Cube.mk (Point.mk (u16 xx) (u16 yy) (u16 (2 ^ v.sideShift))) v.sideShift)
            (pix.getD (yy * v.sizeX + xx) 0)) acc2.sizeX acc2.sizeY acc2.sideShift =
          Voctree.mk (acc2.vocelish.Set
            (Cube.mk (Point.mk (u16 xx) (u16 yy) (u16 (2 ^ (v.sideShift - 1)))) v.sideShift)
            (pix.getD (yy * v.sizeX + xx) 0)) acc2.sizeX acc2.sizeY acc2.sideShift
        have hcc : acc2.vocelish.Set
            (Cube.mk (Point.mk (u16 xx) (u16 yy) (u16 (2 ^ v.sideShift))) v.sideShift)
            (pix.getD (yy * v.sizeX + xx) 0) =
          acc2.vocelish.Set
            (Cube.mk (Point.mk (u16 xx) (u16 yy) (u16 (2 ^ (v.sideShift - 1)))) v.sideShift)
            (pix.getD (yy * v.sizeX + xx) 0) := by
          apply Set_cube_congr
          · rw [hu1, hu2]
            exact hoct (u16 xx) (u16 yy)
          · rfl
        rw [hcc]
  · intro h16
    rw [h16]
    decide

/-- C10 witness: a literal shift-2 volume. -/
theorem C10_witness :
    1 ≤ (⟨.v1 3, 1, 1, 2⟩ : Voctree).sideShift ∧
    (resizeSideShift ⟨.v1 3, 1, 1, 2⟩ (2 ^ (⟨.v1 3, 1, 1, 2⟩ : Voctree).sideShift) =
      ⟨.v1 3, 1, 1, 2⟩ ∧
    ((⟨.v1 3, 1, 1, 2⟩ : Voctree).sideShift ≤ 15 →
      (∀ x y : Nat,
        octIndex ⟨⟨x, y, 2 ^ (⟨.v1 3, 1, 1, 2⟩ : Voctree).sideShift⟩,
            (⟨.v1 3, 1, 1, 2⟩ : Voctree).sideShift⟩ =
          octIndex ⟨⟨x, y, 2 ^ ((⟨.v1 3, 1, 1, 2⟩ : Voctree).sideShift - 1)⟩,
            (⟨.v1 3, 1, 1, 2⟩ : Voctree).sideShift⟩) ∧
      (getPlane ⟨.v1 3, 1, 1, 2⟩
          (2 ^ (⟨.v1 3, 1, 1, 2⟩ : Voctree).sideShift)).1 =
        (getPlane ⟨.v1 3, 1, 1, 2⟩
          (2 ^ ((⟨.v1 3, 1, 1, 2⟩ : Voctree).sideShift - 1))).1 ∧
      (∀ pix : List Nat,
        (setPlane ⟨.v1 3, 1, 1, 2⟩
            (2 ^ (⟨.v1 3, 1, 1, 2⟩ : Voctree).sideShift) pix).1 =
          (setPlane ⟨.v1 3, 1, 1, 2⟩
            (2 ^ ((⟨.v1 3, 1, 1, 2⟩ : Voctree).sideShift - 1)) pix).1)) ∧
    ((⟨.v1 3, 1, 1, 2⟩ : Voctree).sideShift = 16 →
      u16 (2 ^ (⟨.v1 3, 1, 1, 2⟩ : Voctree).sideShift) = 0)) :=
  ⟨by decide, C10_amended ⟨.v1 3, 1, 1, 2⟩ (by decide)⟩

/-- C10 counterexample: growing the written 1x1 volume to shift 16 with
getPlane at z = 65536 = 2^16 reads the plane at z = 0 (the written value
7), not the plane at z = 2^15 = 32768 (which reads 0): the uint16
conversion wraps 65536 to 0. -/
theorem C10_counterexample :
    (getPlane ((newVoctree 1 1).Set ⟨0, 0, 0⟩ 7) 65536).2.sideShift = 16 ∧
    (getPlane ((newVoctree 1 1).Set ⟨0, 0, 0⟩ 7) 65536).1 = [7] ∧
    (getPlane ((getPlane ((newVoctree 1 1).Set ⟨0, 0, 0⟩ 7) 65536).2) 32768).1 = [0] ∧
    (getPlane ((getPlane ((newVoctree 1 1).Set ⟨0, 0, 0⟩ 7) 65536).2) 0).1 = [7] := by
  rw [v0_eq]
  have hle16 : (resizeSideShift ⟨.v1 7, 1, 1, 0⟩ 65536).sideShift ≤ 16 :=
    resize_sideShift_le_of _ 65536 16 (by decide) (by decide)
  have hge : 16 ≤ (resizeSideShift ⟨.v1 7, 1, 1, 0⟩ 65536).sideShift := by
    by_contra hc
    push_neg at hc
    have hle := resize_le (⟨.v1 7, 1, 1, 0⟩ : Voctree) 65536
    have hsmall : (1 : Nat) <<<
        (resizeSideShift ⟨.v1 7, 1, 1, 0⟩ 65536).sideShift ≤ 1 <<< 15 := by
      rw [Nat.one_shiftLeft, Nat.one_shiftLeft]
      exact Nat.pow_le_pow_right (by norm_num) (by omega)
    have h15 : (1 : Nat) <<< 15 = 32768 := by decide
    omega
  have hsh : (resizeSideShift ⟨.v1 7, 1, 1, 0⟩ 65536).sideShift = 16 :=
    le_antisymm hle16 hge
  have hAt0 : (resizeSideShift ⟨.v1 7, 1, 1, 0⟩ 65536).At ⟨0, 0, 0⟩ = 7 := by
    rw [resize_At_low _ 65536 ⟨0, 0, 0⟩ ⟨by decide, by decide, by decide⟩ hle16]
    rfl
  have hAtHigh : (resizeSideShift ⟨.v1 7, 1, 1, 0⟩ 65536).At ⟨0, 0, 32768⟩ = 0 := by
    apply resize_At_zero _ 65536 0 ?hv hle16 ⟨0, 0, 32768⟩ ?hin ?hz
    case hv =>
      intro p hp hpz
      have hz1 : p.z < 1 := hp.2.2
      have hz2 : (1 : Nat) ≤ p.z := hpz
      omega
    case hin =>
      rw [hsh]
      exact ⟨by decide, by decide, by decide⟩
    case hz => decide
  refine ⟨?_, ?_, ?_, ?_⟩
  · rw [getPlane_state]
    exact hsh
  · rw [getPlane_one _ _ rfl rfl]
    show [(resizeSideShift ⟨.v1 7, 1, 1, 0⟩ 65536).At ⟨0, 0, 0⟩] = [7]
    rw [hAt0]
  · rw [getPlane_state]
    rw [getPlane_one _ _ (by rw [(resize_sizes _ _).1]) (by rw [(resize_sizes _ _).2])]
    rw [resize_stop _ 32768 (by rw [hsh]; decide)]
    show [(resizeSideShift ⟨.v1 7, 1, 1, 0⟩ 65536).At ⟨0, 0, 32768⟩] = [0]
    rw [hAtHigh]
  · rw [getPlane_state]
    rw [getPlane_one _ _ (by rw [(resize_sizes _ _).1]) (by rw [(resize_sizes _ _).2])]
    rw [resize_stop _ 0 (Nat.not_lt_zero _)]
    show [(resizeSideShift ⟨.v1 7, 1, 1, 0⟩ 65536).At ⟨0, 0, 0⟩] = [7]
    rw [hAt0]
